import Mathlib

/-!
# openidmask: the mask accessors and the OpenFX render helpers

A shallow embedding of `openidmask/Mask.h` (the inline accessors of `Mask`) and of the
pure parts of `openfx/openfx.cpp` (`pixelAddress`, the row banding of
`Processor::multiThreadProcessing`, `halton`, the pattern splitting loop and the `match`
lambda of `render`).

Machine integers are mathematical integers with explicit wrapping: `int` is 32-bit two's
complement (`toInt32`), `unsigned int` / `uint32_t` is arithmetic modulo `2^32`
(`toUInt32`). A `std::vector` is a `List`; `v[i]` with an `int` index is `vecAt`, which has
no value (`none`) when the index, converted to `size_t`, is not below the size.
Characters are byte values, a C string is the list of its characters before the `\0`.
-/

namespace openidmask

/-! ## Machine integers -/

/-- The value of an integer stored in an `int` (32-bit, two's complement, wrapping). -/
@[irreducible] def toInt32 (z : Int) : Int := (z + 2147483648) % 4294967296 - 2147483648

/-- The value of an integer stored in a `uint32_t` / `unsigned int` (modulo `2^32`). -/
@[irreducible] def toUInt32 (z : Int) : Nat := (z % 4294967296).toNat

/-- The values an `int` can hold. -/
def IsInt32 (z : Int) : Prop := -2147483648 ≤ z ∧ z < 2147483648

instance (z : Int) : Decidable (IsInt32 z) := by unfold IsInt32; infer_instance

/-- The values a `uint32_t` can hold. -/
def IsUInt32 (n : Nat) : Prop := n < 4294967296

instance (n : Nat) : Decidable (IsUInt32 n) := by unfold IsUInt32; infer_instance

/-- Element access `v[i]` of a `std::vector` with an `int` index: the index is converted to
`size_t`, so a negative index is far beyond any size; out of range there is no value. -/
def vecAt {α : Type} (v : List α) (i : Int) : Option α :=
  if i < 0 then none else v[i.toNat]?

/-! ## `Mask` (openidmask/Mask.h) -/

/-- The `Sample` aggregate returned by `getSample`: an id and a coverage (the bit pattern of
the `half`, which the accessors only copy). -/
structure Sample where
  Id : Nat
  Coverage : Nat
deriving DecidableEq

/-- The data members of `class Mask`. Characters of `_Names` are byte values. -/
structure Mask where
  _Width : Int
  _Height : Int
  _NamesIndexes : List Nat
  _Names : List Nat
  _PixelsIndexes : List Nat
  _Ids : List Nat
  _Coverage : List Nat

namespace Mask

/-- The member types: `int` sizes, `uint32_t` vector entries, 16-bit coverages, bytes. -/
def WellTyped (m : Mask) : Prop :=
  IsInt32 m._Width ∧ IsInt32 m._Height ∧
  (∀ v ∈ m._NamesIndexes, IsUInt32 v) ∧ (∀ c ∈ m._Names, c < 256) ∧
  (∀ v ∈ m._PixelsIndexes, IsUInt32 v) ∧ (∀ v ∈ m._Ids, IsUInt32 v) ∧
  (∀ v ∈ m._Coverage, v < 65536)

instance (m : Mask) : Decidable m.WellTyped := by unfold WellTyped; infer_instance

/-- The linear pixel offset, `const int offset = x+y*_Width;`. -/
def pixelOffset (m : Mask) (x y : Int) : Int :=
  toInt32 (x + toInt32 (y * m._Width))

/-- The accessor `Mask::getSampleN`: `_PixelsIndexes[offset+1]-_PixelsIndexes[offset]`, a `uint32_t`
difference returned as `int`. -/
def getSampleN (m : Mask) (x y : Int) : Option Int := do
  let hi ← vecAt m._PixelsIndexes (toInt32 (m.pixelOffset x y + 1))
  let lo ← vecAt m._PixelsIndexes (m.pixelOffset x y)
  pure (toInt32 (toUInt32 ((hi : Int) - (lo : Int))))

/-- The value of `const int index = _PixelsIndexes[x+y*_Width]+sample;` for the offset entry `p`: a
`uint32_t` sum stored in an `int`. -/
def sampleIndex (p : Nat) (sample : Int) : Int :=
  toInt32 (toUInt32 ((p : Int) + sample))

/-- The accessor `Mask::getSample`: `index = _PixelsIndexes[x+y*_Width]+sample`, then
`{_Ids[index], _Coverage[index]}`. -/
def getSample (m : Mask) (x y sample : Int) : Option Sample := do
  let p ← vecAt m._PixelsIndexes (m.pixelOffset x y)
  let id ← vecAt m._Ids (sampleIndex p sample)
  let cov ← vecAt m._Coverage (sampleIndex p sample)
  pure ⟨id, cov⟩

/-- The accessor `Mask::getIdN`: `(uint32_t)_NamesIndexes.size ()`. -/
def getIdN (m : Mask) : Nat := toUInt32 (m._NamesIndexes.length : Int)

/-- The C string found at byte `off` of a `std::string` buffer: the characters up to the
first `\0` (the buffer is followed by its own terminator, so `off = size` reads `""`). -/
def cstrAt (buf : List Nat) (off : Nat) : Option (List Nat) :=
  if off ≤ buf.length then some ((buf.drop off).takeWhile (fun c => c ≠ 0)) else none

/-- The accessor `Mask::getName`: `&_Names[_NamesIndexes[id]]` when `id < getIdN ()`, else `""`. The
returned pointer is modelled by the C string it points to. -/
def getName (m : Mask) (id : Nat) : Option (List Nat) :=
  if id < m.getIdN then
    match m._NamesIndexes[id]? with
    | some off => cstrAt m._Names off
    | none => none
  else some []

/-- The layout the comments of `_PixelsIndexes` describe: size `_Width*_Height+1` and
non-decreasing. -/
def OffsetsLayout (m : Mask) : Prop :=
  (m._PixelsIndexes.length : Int) = m._Width * m._Height + 1 ∧
  m._PixelsIndexes.Pairwise (fun a b => a ≤ b)

/-- The full layout invariant: `OffsetsLayout`, and the last offset is the common length of
`_Ids` and `_Coverage`. -/
def Layout (m : Mask) : Prop :=
  m.OffsetsLayout ∧ m._PixelsIndexes.getLast? = some m._Ids.length ∧
  m._Coverage.length = m._Ids.length

instance (m : Mask) : Decidable m.OffsetsLayout := by unfold OffsetsLayout; infer_instance

instance (m : Mask) : Decidable m.Layout := by unfold Layout; infer_instance

end Mask

/-- The name buffer the comment of `_Names` describes: the names concatenated, each followed
by its terminating `\0`. -/
def concatNames : List (List Nat) → List Nat
  | [] => []
  | n :: ns => n ++ 0 :: concatNames ns

/-- The byte offsets at which the names start in `concatNames`, the first one at `start`. -/
def nameOffsets (start : Nat) : List (List Nat) → List Nat
  | [] => []
  | n :: ns => start :: nameOffsets (start + n.length + 1) ns

/-- The 2×1 mask of the specification's scenario: pixel (0,0) holds the samples
(id 0, "foo", 0.4) and (id 1, "bar", 0.6), pixel (1,0) is empty. -/
def exampleMask : Mask :=
  { _Width := 2, _Height := 1,
    _NamesIndexes := [0, 4], _Names := [102, 111, 111, 0, 98, 97, 114, 0],
    _PixelsIndexes := [0, 2, 2], _Ids := [0, 1], _Coverage := [13926, 14541] }

/-- A 1×1 mask whose only pixel holds `2^31` samples. -/
def hugePixelMask : Mask :=
  { _Width := 1, _Height := 1, _NamesIndexes := [0], _Names := [97, 0],
    _PixelsIndexes := [0, 2147483648],
    _Ids := List.replicate 2147483648 0, _Coverage := List.replicate 2147483648 0 }

/-- A 2×1 mask with `2^31+1` samples, the last two of them in pixel (1,0). -/
def hugeMask : Mask :=
  { _Width := 2, _Height := 1, _NamesIndexes := [0], _Names := [97, 0],
    _PixelsIndexes := [0, 2147483647, 2147483649],
    _Ids := List.replicate 2147483649 0, _Coverage := List.replicate 2147483649 0 }

/-- A 2×2 mask with one sample in each pixel. -/
def gridMask : Mask :=
  { _Width := 2, _Height := 2, _NamesIndexes := [0], _Names := [97, 0],
    _PixelsIndexes := [0, 1, 2, 3, 4], _Ids := [0, 0, 0, 0],
    _Coverage := [15360, 15360, 15360, 15360] }

/-- The name list of `manyNamesMask`: `2^32 - 1` empty names followed by the name "a". -/
def manyNames : List (List Nat) := List.replicate 4294967295 [] ++ [[97]]

/-- An empty image whose name table holds the `2^32` names of `manyNames`. -/
def manyNamesMask : Mask :=
  { _Width := 0, _Height := 0,
    _NamesIndexes := nameOffsets 0 manyNames, _Names := concatNames manyNames,
    _PixelsIndexes := [0], _Ids := [], _Coverage := [] }

namespace Mask

/-- The sum of `getSampleN (x, y)` over all pixels of the image, row by row (a lookup
without value counts for `0`). -/
def totalSampleN (m : Mask) : Int :=
  ((List.range m._Height.toNat).map fun (y : Nat) =>
    ((List.range m._Width.toNat).map fun (x : Nat) =>
      (m.getSampleN (x : Int) (y : Int)).getD 0).sum).sum

/-- The flat index `getSample (x, y, sample)` computes,
`_PixelsIndexes[x+y*_Width]+sample`. -/
def flatIndex (m : Mask) (x y sample : Int) : Option Int :=
  (vecAt m._PixelsIndexes (m.pixelOffset x y)).map fun p => sampleIndex p sample

/-- The valid triples: `(x, y)` inside the image and `0 <= sample < getSampleN (x, y)`. -/
def ValidTriple (m : Mask) (x y sample : Int) : Prop :=
  0 ≤ x ∧ x < m._Width ∧ 0 ≤ y ∧ y < m._Height ∧
    ∃ n, m.getSampleN x y = some n ∧ 0 ≤ sample ∧ sample < n

end Mask

/-! ## `pixelAddress` (openfx/openfx.cpp) -/

/-- The four `int` members of `OfxRectI`. -/
structure OfxRectI where
  x1 : Int
  y1 : Int
  x2 : Int
  y2 : Int

/-- The function `pixelAddress`: the returned pointer is `none` for the null pointer `0`, otherwise the
byte address `img + (y - rect.y1) * bytesPerLine + (x - rect.x1) * sizeof (PIX)`; the two
offsets are `int` expressions. -/
def pixelAddress (sizeofPIX : Nat) (img : Int) (rect : OfxRectI) (x y bytesPerLine : Int) :
    Option Int :=
  if x < rect.x1 ∨ x ≥ rect.x2 ∨ y < rect.y1 ∨ y > rect.y2 then none
  else some (img + toInt32 (toInt32 (y - rect.y1) * bytesPerLine)
    + toInt32 (x - rect.x1) * (sizeofPIX : Int))

/-! ## `Processor::multiThreadProcessing` -/

/-- The value of `unsigned int dy = proc->window.y2 - proc->window.y1;`. -/
def windowDy (windowY1 windowY2 : Int) : Nat :=
  toUInt32 (toInt32 (windowY2 - windowY1))

/-- The value of `unsigned int y1 = proc->window.y1 + threadId * dy/nThreads;`. -/
def bandY1 (threadId nThreads : Nat) (windowY1 : Int) (dy : Nat) : Nat :=
  toUInt32 (windowY1 + ((toUInt32 ((threadId * dy : Nat) : Int) / nThreads : Nat) : Int))

/-- The value of
`unsigned int y2 = proc->window.y1 + std::min((threadId + 1) * dy/nThreads, dy);`. -/
def bandY2 (threadId nThreads : Nat) (windowY1 : Int) (dy : Nat) : Nat :=
  toUInt32 (windowY1 +
    ((min (toUInt32 ((toUInt32 ((threadId + 1 : Nat) : Int) * dy : Nat) : Int) / nThreads) dy
      : Nat) : Int))

/-- The function `Processor::multiThreadProcessing`: the rows `(win.y1, win.y2)` handed to
`doProcessing`; the division by `nThreads = 0` has no value. -/
def multiThreadProcessing (threadId nThreads : Nat) (windowY1 windowY2 : Int) :
    Option (Int × Int) :=
  if nThreads = 0 then none
  else some (toInt32 (bandY1 threadId nThreads windowY1 (windowDy windowY1 windowY2)),
    toInt32 (bandY2 threadId nThreads windowY1 (windowDy windowY1 windowY2)))

/-- The rows visited by the loop `for(int y = procWindow.y1; y < procWindow.y2; y++)` of
`doProcessing`. -/
def rowInBand (band : Int × Int) (y : Int) : Prop := band.1 ≤ y ∧ y < band.2

instance (band : Int × Int) (y : Int) : Decidable (rowInBand band y) := by
  unfold rowInBand; infer_instance

/-! ## `halton` and `haltonColors`, in binary32 arithmetic

A `float` is IEEE 754 binary32 and is represented by the rational number it denotes. Each
operation of the source (`/`, `*`, `+` and the conversion `(float)id`) rounds its exact
result to the nearest binary32 value, ties to even (`roundF32`), one operation at a time:
the product and the sum of `result + f * fmodf (i, base)` are rounded separately. The
library functions `fmodf` and `floorf` return exact results. Infinities and NaN are not
modelled: from an `int` and the bases 2, 3 and 5 no operation of `halton` leaves the
binary32 range. -/

/-- The C library function `strstr` on C strings: the offset of the first occurrence of
`needle` in the haystack, `none` for the null pointer (no occurrence). -/
def strstr : List Nat → List Nat → Option Nat
  | [], needle => if needle = [] then some 0 else none
  | c :: hay, needle =>
    if needle.isPrefixOf (c :: hay) then some 0 else (strstr hay needle).map (· + 1)

/-- The result of `std::string::c_str` read as a C string: the characters before the first
`\0`. -/
def c_str (s : List Nat) : List Nat := s.takeWhile (fun c => c ≠ 0)

/-- The ordering of `std::string` (lexicographic on the characters). -/
def strLess : List Nat → List Nat → Bool
  | [], [] => false
  | [], _ :: _ => true
  | _ :: _, [] => false
  | a :: as, b :: bs => if a < b then true else if b < a then false else strLess as bs

/-- The member `std::set<std::string>::insert` on the sorted duplicate-free element list. -/
def setInsert (s : List Nat) : List (List Nat) → List (List Nat)
  | [] => [s]
  | t :: ts =>
    if strLess s t then s :: t :: ts
    else if strLess t s then t :: setInsert s ts
    else t :: ts

/-- The `match` lambda of `render`: whether `strstr (name, pattern.c_str ())` is non-null
for some pattern of the set, in iteration order. -/
def render_match : List (List Nat) → List Nat → Bool
  | [], _ => false
  | pattern :: rest, name =>
    if (strstr name (c_str pattern)).isSome then true else render_match rest name

/-- The splitting loop of `render` on the memory read through `pattern`, with the current
`line` and `patterns`; `none` when the memory ends before a `\0` is read. -/
def splitLoop : List Nat → List Nat → List (List Nat) → Option (List (List Nat))
  | [], _, _ => none
  | c :: rest, line, patterns =>
    if c = 10 ∨ c = 13 ∨ c = 0 then
      if line ≠ [] then
        if c = 0 then some (setInsert line patterns)
        else splitLoop rest [] (setInsert line patterns)
      else
        if c = 0 then some patterns else splitLoop rest line patterns
    else splitLoop rest (line ++ [c]) patterns

/-- The pattern set `render` builds from the NUL-terminated configuration string with
characters `config`. -/
def parsePatterns (config : List Nat) : Option (List (List Nat)) :=
  splitLoop (config ++ [0]) [] []

/-- The set named by the specification: `p` is a non-empty maximal run of characters other
than `\n` and `\r` in `config`. -/
def IsMaximalRun (config p : List Nat) : Prop :=
  p ≠ [] ∧ (∀ c ∈ p, c ≠ 10 ∧ c ≠ 13) ∧
  ∃ pre post, config = pre ++ p ++ post ∧
    (∀ c, pre.getLast? = some c → c = 10 ∨ c = 13) ∧
    (∀ c, post.head? = some c → c = 10 ∨ c = 13)

/-! ## Machine integer lemmas -/

theorem toInt32_of_isInt32 {z : Int} (h : IsInt32 z) : toInt32 z = z := by
  unfold IsInt32 at h
  unfold toInt32
  omega

theorem toInt32_of_bounds {z : Int} (h0 : -2147483648 ≤ z) (h1 : z < 2147483648) :
    toInt32 z = z :=
  toInt32_of_isInt32 ⟨h0, h1⟩

theorem toUInt32_of_bounds {z : Int} (h0 : 0 ≤ z) (h1 : z < 4294967296) :
    (toUInt32 z : Int) = z := by
  unfold toUInt32
  omega

theorem vecAt_neg {α : Type} (v : List α) {i : Int} (h : i < 0) : vecAt v i = none := by
  simp [vecAt, h]

theorem vecAt_nonneg {α : Type} (v : List α) {i : Int} (h : 0 ≤ i) :
    vecAt v i = v[i.toNat]? := by
  simp [vecAt, not_lt.mpr h]

theorem vecAt_natCast {α : Type} (v : List α) (n : Nat) : vecAt v (n : Int) = v[n]? := by
  simp [vecAt]

theorem toInt32_toUInt32 (z : Int) : toInt32 (toUInt32 z) = toInt32 z := by
  unfold toInt32 toUInt32
  omega

theorem toUInt32_natCast {n : Nat} (h : n < 4294967296) : toUInt32 (n : Int) = n := by
  unfold toUInt32
  omega

/-! ## The pixel offset table -/

theorem Mask.getSampleN_eq_some (m : Mask) {x y : Int} (hi lo : Nat)
    (hhi : vecAt m._PixelsIndexes (toInt32 (m.pixelOffset x y + 1)) = some hi)
    (hlo : vecAt m._PixelsIndexes (m.pixelOffset x y) = some lo) :
    m.getSampleN x y = some (toInt32 (toUInt32 ((hi : Int) - (lo : Int)))) := by
  unfold Mask.getSampleN
  rw [hhi, hlo]
  simp only [Option.bind_eq_bind, Option.some_bind, Option.pure_def]

theorem Mask.getSampleN_eq_none_of_lo (m : Mask) {x y : Int}
    (h : vecAt m._PixelsIndexes (m.pixelOffset x y) = none) : m.getSampleN x y = none := by
  unfold Mask.getSampleN
  rw [h]
  cases vecAt m._PixelsIndexes (toInt32 (m.pixelOffset x y + 1)) <;>
    simp only [Option.bind_eq_bind, Option.some_bind, Option.none_bind]

theorem Mask.getSampleN_eq_none_of_hi (m : Mask) {x y : Int}
    (h : vecAt m._PixelsIndexes (toInt32 (m.pixelOffset x y + 1)) = none) :
    m.getSampleN x y = none := by
  unfold Mask.getSampleN
  rw [h]
  simp only [Option.bind_eq_bind, Option.none_bind]

theorem Mask.getSampleN_congr (m : Mask) {x y x' y' : Int}
    (h : m.pixelOffset x y = m.pixelOffset x' y') : m.getSampleN x y = m.getSampleN x' y' := by
  unfold Mask.getSampleN
  rw [h]

theorem Mask.getSample_eq_some (m : Mask) {x y sample : Int} {p id cov : Nat}
    (hp : vecAt m._PixelsIndexes (m.pixelOffset x y) = some p)
    (hid : vecAt m._Ids (Mask.sampleIndex p sample) = some id)
    (hcv : vecAt m._Coverage (Mask.sampleIndex p sample) = some cov) :
    m.getSample x y sample = some ⟨id, cov⟩ := by
  unfold Mask.getSample
  rw [hp, Option.bind_eq_bind, Option.some_bind, hid, Option.some_bind, hcv, Option.some_bind]
  rfl

theorem Mask.getSample_eq_none_of_index (m : Mask) {x y sample : Int} {p : Nat}
    (hp : vecAt m._PixelsIndexes (m.pixelOffset x y) = some p)
    (hid : vecAt m._Ids (Mask.sampleIndex p sample) = none) :
    m.getSample x y sample = none := by
  unfold Mask.getSample
  rw [hp, Option.bind_eq_bind, Option.some_bind, hid, Option.none_bind]


theorem sorted_getElem?_le {l : List Nat} (h : l.Pairwise (fun a b => a ≤ b)) {i j a b : Nat}
    (hij : i ≤ j) (ha : l[i]? = some a) (hb : l[j]? = some b) : a ≤ b := by
  obtain ⟨hi, rfl⟩ := List.getElem?_eq_some.mp ha
  obtain ⟨hj, rfl⟩ := List.getElem?_eq_some.mp hb
  rcases Nat.eq_or_lt_of_le hij with h' | h'
  · subst h'; exact le_rfl
  · exact List.pairwise_iff_getElem.mp h i j hi hj h'

theorem Mask.pixelOffset_eq (m : Mask) {x y : Int}
    (hsz : m._Width * m._Height < 2147483648)
    (hx : 0 ≤ x) (hx' : x < m._Width) (hy : 0 ≤ y) (hy' : y < m._Height) :
    m.pixelOffset x y = x + y * m._Width ∧ 0 ≤ x + y * m._Width ∧
      x + y * m._Width + 1 ≤ m._Width * m._Height := by
  have hW : 0 < m._Width := by omega
  have h1 : 0 ≤ y * m._Width := mul_nonneg hy hW.le
  have h2 : y * m._Width + m._Width ≤ m._Width * m._Height := by nlinarith
  unfold Mask.pixelOffset
  rw [toInt32_of_bounds (z := y * m._Width) (by omega) (by omega)]
  rw [toInt32_of_bounds (by omega) (by omega)]
  omega

/-- Inside the image, with `_Width*_Height < 2^31`, `getSampleN` reads the two consecutive
offsets of the pixel and returns their `uint32_t` difference converted to `int`. -/
theorem Mask.getSampleN_inside (m : Mask) {x y : Int}
    (hL : m.OffsetsLayout) (hsz : m._Width * m._Height < 2147483648)
    (hx : 0 ≤ x) (hx' : x < m._Width) (hy : 0 ≤ y) (hy' : y < m._Height) :
    ∃ lo hi : Nat,
      m._PixelsIndexes[(x + y * m._Width).toNat]? = some lo ∧
      m._PixelsIndexes[(x + y * m._Width).toNat + 1]? = some hi ∧ lo ≤ hi ∧
      vecAt m._PixelsIndexes (m.pixelOffset x y) = some lo ∧
      m.getSampleN x y = some (toInt32 ((hi : Int) - (lo : Int))) := by
  obtain ⟨hoff, h0, h1⟩ := m.pixelOffset_eq hsz hx hx' hy hy'
  obtain ⟨hlen, hsorted⟩ := hL
  have hlt : (x + y * m._Width).toNat + 1 < m._PixelsIndexes.length := by omega
  have hlt' : (x + y * m._Width).toNat < m._PixelsIndexes.length := by omega
  refine ⟨m._PixelsIndexes[(x + y * m._Width).toNat], m._PixelsIndexes[(x + y * m._Width).toNat + 1],
    List.getElem?_eq_getElem hlt', List.getElem?_eq_getElem hlt, ?_, ?_, ?_⟩
  · exact sorted_getElem?_le hsorted (Nat.le_succ _) (List.getElem?_eq_getElem hlt')
      (List.getElem?_eq_getElem hlt)
  · rw [hoff, vecAt_nonneg _ h0, List.getElem?_eq_getElem hlt']
  · have e : (x + y * m._Width + 1).toNat = (x + y * m._Width).toNat + 1 := by omega
    rw [m.getSampleN_eq_some m._PixelsIndexes[(x + y * m._Width).toNat + 1]
      m._PixelsIndexes[(x + y * m._Width).toNat], toInt32_toUInt32]
    · rw [hoff, toInt32_of_bounds (z := x + y * m._Width + 1) (by omega) (by omega),
        vecAt_nonneg _ (by omega : (0 : Int) ≤ x + y * m._Width + 1), e,
        List.getElem?_eq_getElem hlt]
    · rw [hoff, vecAt_nonneg _ h0, List.getElem?_eq_getElem hlt']

theorem toInt32_lower (z : Int) : -2147483648 ≤ toInt32 z := by
  unfold toInt32
  omega

theorem toInt32_upper (z : Int) : toInt32 z < 2147483648 := by
  unfold toInt32
  omega

theorem sorted_le_getLast? {l : List Nat} (h : l.Pairwise (fun a b => a ≤ b)) {j a t : Nat}
    (ha : l[j]? = some a) (ht : l.getLast? = some t) : a ≤ t := by
  rw [List.getLast?_eq_getElem?] at ht
  obtain ⟨hj, -⟩ := List.getElem?_eq_some.mp ha
  exact sorted_getElem?_le h (by omega) ha ht

theorem hugePixelMask_wellTyped : hugePixelMask.WellTyped := by
  refine ⟨by decide, by decide, by decide, by decide, by decide, ?_, ?_⟩
  · intro v hv
    have := List.eq_of_mem_replicate hv
    subst this; decide
  · intro v hv
    have := List.eq_of_mem_replicate hv
    subst this; decide

theorem hugePixelMask_layout : hugePixelMask.Layout := by
  refine ⟨⟨by decide, by decide⟩, ?_, ?_⟩
  · show [0, 2147483648].getLast? = some (List.replicate 2147483648 0).length
    rw [List.length_replicate]; rfl
  · show (List.replicate 2147483648 0).length = (List.replicate 2147483648 0).length
    rfl

theorem hugeMask_wellTyped : hugeMask.WellTyped := by
  refine ⟨by decide, by decide, by decide, by decide, by decide, ?_, ?_⟩
  · intro v hv
    have := List.eq_of_mem_replicate hv
    subst this; decide
  · intro v hv
    have := List.eq_of_mem_replicate hv
    subst this; decide

theorem hugeMask_layout : hugeMask.Layout := by
  refine ⟨⟨by decide, by decide⟩, ?_, ?_⟩
  · show [0, 2147483647, 2147483649].getLast? = some (List.replicate 2147483649 0).length
    rw [List.length_replicate]; rfl
  · show (List.replicate 2147483649 0).length = (List.replicate 2147483649 0).length
    rfl

/-! ## Claims on `getSampleN` and `getSample` -/

/-- C5, as stated, fails: in the well-typed mask `hugePixelMask`, which satisfies the layout
invariant, the pixel (0,0) has offsets 0 and `2^31`; `getSampleN(0,0)` is the `uint32_t`
difference `2^31` converted to `int`, that is `-2^31`, which is negative and differs from
`pixelOffsets[1] - pixelOffsets[0]`. -/
theorem getSampleN_nonneg_counterexample :
    hugePixelMask.WellTyped ∧ hugePixelMask.Layout ∧
    (0 : Int) < hugePixelMask._Width ∧ (0 : Int) < hugePixelMask._Height ∧
    hugePixelMask._PixelsIndexes[0]? = some 0 ∧
    hugePixelMask._PixelsIndexes[1]? = some 2147483648 ∧
    hugePixelMask.getSampleN 0 0 = some (-2147483648) :=
  ⟨hugePixelMask_wellTyped, hugePixelMask_layout, by decide, by decide, by decide, by decide,
    by with_unfolding_all rfl⟩

/-- C5, amended: for a mask whose `_PixelsIndexes` is non-decreasing with length
`_Width*_Height+1`, with `_Width*_Height < 2^31`, and for `(x,y)` inside the image,
`getSampleN(x,y)` returns the difference `pixelOffsets[p+1] - pixelOffsets[p]`
(`p = x + y*_Width`) taken on `uint32_t` and converted to `int`; when that difference is
below `2^31` the result is the difference itself and is `>= 0`. -/
theorem getSampleN_eq_offset_difference (m : Mask) (x y : Int)
    (hL : m.OffsetsLayout) (hsz : m._Width * m._Height < 2147483648)
    (hx : 0 ≤ x) (hx' : x < m._Width) (hy : 0 ≤ y) (hy' : y < m._Height) :
    ∃ lo hi : Nat,
      m._PixelsIndexes[(x + y * m._Width).toNat]? = some lo ∧
      m._PixelsIndexes[(x + y * m._Width).toNat + 1]? = some hi ∧ lo ≤ hi ∧
      m.getSampleN x y = some (toInt32 (toUInt32 ((hi : Int) - (lo : Int)))) ∧
      (hi - lo < 2147483648 →
        m.getSampleN x y = some ((hi : Int) - (lo : Int)) ∧ (0 : Int) ≤ (hi : Int) - (lo : Int)) := by
  obtain ⟨lo, hi, h1, h2, hle, -, hn⟩ := m.getSampleN_inside hL hsz hx hx' hy hy'
  refine ⟨lo, hi, h1, h2, hle, ?_, ?_⟩
  · rw [hn, toInt32_toUInt32]
  · intro hlt
    rw [hn, toInt32_of_bounds (by omega) (by omega)]
    exact ⟨rfl, by omega⟩

/-- Witness for C5, amended: pixel (0,0) of `exampleMask`. -/
theorem getSampleN_eq_offset_difference_witness :
    ∃ lo hi : Nat,
      exampleMask._PixelsIndexes[((0 : Int) + 0 * exampleMask._Width).toNat]? = some lo ∧
      exampleMask._PixelsIndexes[((0 : Int) + 0 * exampleMask._Width).toNat + 1]? = some hi ∧
      lo ≤ hi ∧
      exampleMask.getSampleN 0 0 = some (toInt32 (toUInt32 ((hi : Int) - (lo : Int)))) ∧
      (hi - lo < 2147483648 →
        exampleMask.getSampleN 0 0 = some ((hi : Int) - (lo : Int)) ∧
          (0 : Int) ≤ (hi : Int) - (lo : Int)) :=
  getSampleN_eq_offset_difference exampleMask 0 0 ⟨by decide, by decide⟩ (by decide)
    (by decide) (by decide) (by decide) (by decide)

/-- C7, as stated, fails: in the 2×2 mask `gridMask` the coordinate (2,0) is outside the
image (`x = _Width`), yet `getSampleN(2,0)` neither fails nor returns 0: it returns 1, the
sample count of the pixel (0,1) that has the same linear offset. -/
theorem getSampleN_outside_counterexample :
    gridMask.WellTyped ∧ gridMask.Layout ∧ gridMask._Width ≤ 2 ∧
    gridMask.getSampleN 2 0 = some 1 ∧ gridMask.getSampleN 0 1 = some 1 :=
  ⟨by decide, by decide, by decide, by with_unfolding_all rfl, by with_unfolding_all rfl⟩

/-- C7, amended: `getSampleN` checks no bounds; for a mask with non-negative sizes,
`_Width*_Height < 2^31` and `_PixelsIndexes` of length `_Width*_Height+1`, and `(x,y)`
outside the image, let `p` be the `int` value of `x + y*_Width`. If `p` is outside
`[0, _Width*_Height)` the lookup is out of range (`getSampleN` has no value); otherwise
`getSampleN(x,y)` has a value, namely that of the in-image pixel `(p % _Width, p / _Width)`
with the same linear offset. -/
theorem getSampleN_outside_image (m : Mask) (x y : Int)
    (hlen : (m._PixelsIndexes.length : Int) = m._Width * m._Height + 1)
    (hW : 0 ≤ m._Width) (hH : 0 ≤ m._Height)
    (hsz : m._Width * m._Height < 2147483648)
    (_hout : ¬ (0 ≤ x ∧ x < m._Width ∧ 0 ≤ y ∧ y < m._Height)) :
    ((m.pixelOffset x y < 0 ∨ m._Width * m._Height ≤ m.pixelOffset x y) →
      m.getSampleN x y = none) ∧
    ((0 ≤ m.pixelOffset x y ∧ m.pixelOffset x y < m._Width * m._Height) →
      0 ≤ m.pixelOffset x y % m._Width ∧ m.pixelOffset x y % m._Width < m._Width ∧
      0 ≤ m.pixelOffset x y / m._Width ∧ m.pixelOffset x y / m._Width < m._Height ∧
      (m.getSampleN x y).isSome = true ∧
      m.getSampleN x y =
        m.getSampleN (m.pixelOffset x y % m._Width) (m.pixelOffset x y / m._Width)) := by
  have hup : m.pixelOffset x y < 2147483648 := toInt32_upper _
  constructor
  · rintro (hneg | hbig)
    · exact m.getSampleN_eq_none_of_lo (vecAt_neg _ hneg)
    · apply m.getSampleN_eq_none_of_hi
      by_cases hwrap : m.pixelOffset x y + 1 < 2147483648
      · have hnn : (0 : Int) ≤ m.pixelOffset x y + 1 := by
          have := mul_nonneg hW hH
          omega
        rw [toInt32_of_bounds (by omega) hwrap, vecAt_nonneg _ hnn]
        exact List.getElem?_eq_none (by omega)
      · apply vecAt_neg
        have e : m.pixelOffset x y + 1 = 2147483648 := by omega
        have e' : toInt32 2147483648 = -2147483648 := by with_unfolding_all rfl
        rw [e, e']
        decide
  · rintro ⟨h0, hlt⟩
    have hWpos : 0 < m._Width := by
      rcases hW.lt_or_eq with h | h
      · exact h
      · rw [← h, zero_mul] at hlt; omega
    have hx0 := Int.emod_nonneg (m.pixelOffset x y) hWpos.ne'
    have hx1 := Int.emod_lt_of_pos (m.pixelOffset x y) hWpos
    have hy0 : 0 ≤ m.pixelOffset x y / m._Width := Int.ediv_nonneg h0 hW
    have hy1 : m.pixelOffset x y / m._Width < m._Height :=
      Int.ediv_lt_of_lt_mul hWpos (by rw [mul_comm]; exact hlt)
    have hoff := (m.pixelOffset_eq hsz hx0 hx1 hy0 hy1).1
    rw [Int.emod_add_ediv'] at hoff
    refine ⟨hx0, hx1, hy0, hy1, ?_, m.getSampleN_congr hoff.symm⟩
    have hb1 : (m.pixelOffset x y + 1).toNat < m._PixelsIndexes.length := by omega
    have hb0 : (m.pixelOffset x y).toNat < m._PixelsIndexes.length := by omega
    rw [m.getSampleN_eq_some m._PixelsIndexes[(m.pixelOffset x y + 1).toNat]
      m._PixelsIndexes[(m.pixelOffset x y).toNat]]
    · rfl
    · rw [toInt32_of_bounds (z := m.pixelOffset x y + 1) (by omega) (by omega),
        vecAt_nonneg _ (by omega : (0 : Int) ≤ m.pixelOffset x y + 1),
        List.getElem?_eq_getElem hb1]
    · rw [vecAt_nonneg _ h0, List.getElem?_eq_getElem hb0]

/-- Witness for C7, amended: the coordinate (2,0) of the 2×2 `gridMask`. -/
theorem getSampleN_outside_image_witness :
    ((gridMask.pixelOffset 2 0 < 0 ∨ gridMask._Width * gridMask._Height ≤ gridMask.pixelOffset 2 0) →
      gridMask.getSampleN 2 0 = none) ∧
    ((0 ≤ gridMask.pixelOffset 2 0 ∧ gridMask.pixelOffset 2 0 < gridMask._Width * gridMask._Height) →
      0 ≤ gridMask.pixelOffset 2 0 % gridMask._Width ∧
      gridMask.pixelOffset 2 0 % gridMask._Width < gridMask._Width ∧
      0 ≤ gridMask.pixelOffset 2 0 / gridMask._Width ∧
      gridMask.pixelOffset 2 0 / gridMask._Width < gridMask._Height ∧
      (gridMask.getSampleN 2 0).isSome = true ∧
      gridMask.getSampleN 2 0 =
        gridMask.getSampleN (gridMask.pixelOffset 2 0 % gridMask._Width)
          (gridMask.pixelOffset 2 0 / gridMask._Width)) :=
  getSampleN_outside_image gridMask 2 0 (by decide) (by decide) (by decide) (by decide)
    (by decide)

/-! ### `getSample` -/

/-- C1, as stated, fails: the well-typed mask `hugeMask` satisfies the layout invariant,
(1,0) is inside the image, `getSampleN(1,0) = 2` and `sample = 1` is in range, the flat index
`pixelOffsets[1] + 1 = 2^31` is below the length `2^31+1` of `_Ids` and `_Coverage`; but the
code stores the index in an `int`, where it is `-2^31`, and the element access is out of
range. -/
theorem getSample_flat_index_counterexample :
    hugeMask.WellTyped ∧ hugeMask.Layout ∧
    (1 : Int) < hugeMask._Width ∧ (0 : Int) < hugeMask._Height ∧
    hugeMask.getSampleN 1 0 = some 2 ∧
    hugeMask._PixelsIndexes[1]? = some 2147483647 ∧
    2147483647 + 1 < hugeMask._Ids.length ∧ 2147483647 + 1 < hugeMask._Coverage.length ∧
    hugeMask.getSample 1 0 1 = none := by
  refine ⟨hugeMask_wellTyped, hugeMask_layout, by decide, by decide,
    by with_unfolding_all rfl, by decide, ?_, ?_, ?_⟩
  · show 2147483647 + 1 < (List.replicate 2147483649 0).length
    rw [List.length_replicate]; decide
  · show 2147483647 + 1 < (List.replicate 2147483649 0).length
    rw [List.length_replicate]; decide
  · have hp : vecAt hugeMask._PixelsIndexes (hugeMask.pixelOffset 1 0) = some 2147483647 := by
      with_unfolding_all rfl
    have hi : Mask.sampleIndex 2147483647 1 < 0 := by
      have e : Mask.sampleIndex 2147483647 1 = -2147483648 := by with_unfolding_all rfl
      rw [e]; decide
    exact hugeMask.getSample_eq_none_of_index hp (vecAt_neg _ hi)

/-- C1, amended: for a mask satisfying the layout invariant with `_Width*_Height < 2^31` and
at most `2^31` samples in total, and for `(x,y)` inside the image and
`0 <= sample < getSampleN(x,y)`, `getSample(x,y,sample)` reads the flat index
`i = pixelOffsets[x + y*_Width] + sample`, which is within the bounds of both `_Ids` and
`_Coverage`, and returns the pair `(_Ids[i], _Coverage[i])`. -/
theorem getSample_reads_flat_index (m : Mask) (x y sample n : Int)
    (hL : m.Layout) (hsz : m._Width * m._Height < 2147483648)
    (htot : m._Ids.length ≤ 2147483648)
    (hx : 0 ≤ x) (hx' : x < m._Width) (hy : 0 ≤ y) (hy' : y < m._Height)
    (hn : m.getSampleN x y = some n) (hs : 0 ≤ sample) (hs' : sample < n) :
    ∃ p id cov : Nat,
      m._PixelsIndexes[(x + y * m._Width).toNat]? = some p ∧
      p + sample.toNat < m._Ids.length ∧ p + sample.toNat < m._Coverage.length ∧
      m._Ids[p + sample.toNat]? = some id ∧ m._Coverage[p + sample.toNat]? = some cov ∧
      m.getSample x y sample = some ⟨id, cov⟩ := by
  obtain ⟨hOL, hlast, hcov⟩ := hL
  obtain ⟨lo, hi, h1, h2, hle, hv, hN⟩ := m.getSampleN_inside hOL hsz hx hx' hy hy'
  have hhi : hi ≤ m._Ids.length := sorted_le_getLast? hOL.2 h2 hlast
  rw [hN] at hn
  have hn' := Option.some.inj hn
  have hlt : lo + sample.toNat < hi := by
    by_cases hbig : (hi : Int) - (lo : Int) < 2147483648
    · rw [toInt32_of_bounds (by omega) hbig] at hn'
      omega
    · have e : (hi : Int) - (lo : Int) = 2147483648 := by omega
      rw [e] at hn'
      have : toInt32 2147483648 = -2147483648 := by with_unfolding_all rfl
      omega
  have hI : lo + sample.toNat < m._Ids.length := lt_of_lt_of_le hlt hhi
  have hC : lo + sample.toNat < m._Coverage.length := hcov ▸ hI
  obtain ⟨id, hid⟩ : ∃ id, m._Ids[lo + sample.toNat]? = some id :=
    ⟨_, List.getElem?_eq_getElem hI⟩
  obtain ⟨cov, hcv⟩ : ∃ cov, m._Coverage[lo + sample.toNat]? = some cov :=
    ⟨_, List.getElem?_eq_getElem hC⟩
  refine ⟨lo, id, cov, h1, hI, hC, hid, hcv, ?_⟩
  have hidx : Mask.sampleIndex lo sample = ((lo + sample.toNat : Nat) : Int) := by
    unfold Mask.sampleIndex
    rw [toInt32_toUInt32, toInt32_of_bounds (by omega) (by omega)]
    omega
  apply m.getSample_eq_some hv
  · rw [hidx, vecAt_natCast, hid]
  · rw [hidx, vecAt_natCast, hcv]

/-- Witness for C1, amended: sample 1 of pixel (0,0) of `exampleMask`. -/
theorem getSample_reads_flat_index_witness :
    ∃ p id cov : Nat,
      exampleMask._PixelsIndexes[((0 : Int) + 0 * exampleMask._Width).toNat]? = some p ∧
      p + (1 : Int).toNat < exampleMask._Ids.length ∧
      p + (1 : Int).toNat < exampleMask._Coverage.length ∧
      exampleMask._Ids[p + (1 : Int).toNat]? = some id ∧
      exampleMask._Coverage[p + (1 : Int).toNat]? = some cov ∧
      exampleMask.getSample 0 0 1 = some ⟨id, cov⟩ :=
  getSample_reads_flat_index exampleMask 0 0 1 2 (by decide) (by decide) (by decide)
    (by decide) (by decide) (by decide) (by decide) (by with_unfolding_all rfl) (by decide)
    (by decide)


/-! ## The name table -/

theorem length_nameOffsets (names : List (List Nat)) (start : Nat) :
    (nameOffsets start names).length = names.length := by
  induction names generalizing start with
  | nil => rfl
  | cons n ns ih => simp [nameOffsets, ih]

theorem takeWhile_name (n rest : List Nat) (h : 0 ∉ n) :
    (n ++ 0 :: rest).takeWhile (fun c => c ≠ 0) = n := by
  rw [List.takeWhile_append_of_pos, List.takeWhile_cons_of_neg, List.append_nil]
  · simp
  · intro a ha
    have : a ≠ 0 := fun e => h (e ▸ ha)
    simpa using this

/-- The `id`-th offset of `nameOffsets` points at the `id`-th name of the buffer. -/
theorem nameOffsets_spec (names : List (List Nat)) (hnul : ∀ n ∈ names, 0 ∉ n) :
    ∀ (pre : List Nat) (id : Nat) (name : List Nat), names[id]? = some name →
      ∃ off, (nameOffsets pre.length names)[id]? = some off ∧
        Mask.cstrAt (pre ++ concatNames names) off = some name := by
  induction names with
  | nil => intro pre id name h; simp at h
  | cons n ns ih =>
    intro pre id name h
    cases id with
    | zero =>
      simp only [List.getElem?_cons_zero, Option.some.injEq] at h
      subst h
      refine ⟨pre.length, by simp [nameOffsets], ?_⟩
      unfold Mask.cstrAt
      rw [if_pos (by simp), concatNames, List.drop_left,
        takeWhile_name _ _ (hnul n (List.mem_cons_self _ _))]
    | succ k =>
      simp only [List.getElem?_cons_succ] at h
      obtain ⟨off, h1, h2⟩ :=
        ih (fun a ha => hnul a (List.mem_cons_of_mem _ ha)) (pre ++ (n ++ [0])) k name h
      refine ⟨off, ?_, ?_⟩
      · simp only [nameOffsets, List.getElem?_cons_succ]
        simpa [Nat.add_assoc] using h1
      · simpa [concatNames, List.append_assoc] using h2

theorem length_concatNames_replicate (n : Nat) :
    (concatNames (List.replicate n [])).length = n := by
  induction n with
  | zero => rfl
  | succ k ih => simp [List.replicate_succ, concatNames, ih]

theorem mem_concatNames {names : List (List Nat)} {c : Nat} (h : c ∈ concatNames names) :
    c = 0 ∨ ∃ n ∈ names, c ∈ n := by
  induction names with
  | nil => simp [concatNames] at h
  | cons n ns ih =>
    simp only [concatNames, List.mem_append, List.mem_cons] at h
    rcases h with h | h | h
    · exact Or.inr ⟨n, List.mem_cons_self _ _, h⟩
    · exact Or.inl h
    · rcases ih h with h' | ⟨a, ha, hc⟩
      · exact Or.inl h'
      · exact Or.inr ⟨a, List.mem_cons_of_mem _ ha, hc⟩

theorem nameOffsets_append (l₁ l₂ : List (List Nat)) (start : Nat) :
    nameOffsets start (l₁ ++ l₂) =
      nameOffsets start l₁ ++ nameOffsets (start + (concatNames l₁).length) l₂ := by
  induction l₁ generalizing start with
  | nil => simp [nameOffsets, concatNames]
  | cons n ns ih =>
    have e : start + n.length + 1 + (concatNames ns).length
        = start + (n ++ 0 :: concatNames ns).length := by
      rw [List.length_append, List.length_cons]
      omega
    show start :: nameOffsets (start + n.length + 1) (ns ++ l₂) =
      start :: (nameOffsets (start + n.length + 1) ns ++
        nameOffsets (start + (n ++ 0 :: concatNames ns).length) l₂)
    rw [ih, e]

theorem mem_nameOffsets_replicate {n start v : Nat}
    (h : v ∈ nameOffsets start (List.replicate n [])) : v < start + n := by
  induction n generalizing start with
  | zero => simp [nameOffsets] at h
  | succ k ih =>
    simp only [List.replicate_succ, nameOffsets, List.mem_cons, List.length_nil] at h
    rcases h with h | h
    · omega
    · have := ih h
      omega

theorem mem_manyNames {n : List Nat} (h : n ∈ manyNames) : n = [] ∨ n = [97] := by
  unfold manyNames at h
  rcases List.mem_append.mp h with h | h
  · exact Or.inl (List.eq_of_mem_replicate h)
  · exact Or.inr (List.mem_singleton.mp h)

theorem length_manyNames : manyNames.length = 4294967296 := by
  unfold manyNames
  rw [List.length_append, List.length_replicate]
  rfl

theorem manyNamesMask_wellTyped : manyNamesMask.WellTyped := by
  refine ⟨by decide, by decide, ?_, ?_, by decide, by decide, by decide⟩
  · intro v hv
    change v ∈ nameOffsets 0 manyNames at hv
    unfold manyNames at hv
    rw [nameOffsets_append, length_concatNames_replicate] at hv
    rcases List.mem_append.mp hv with h | h
    · have := mem_nameOffsets_replicate h
      unfold IsUInt32
      omega
    · simp only [nameOffsets, List.mem_singleton] at h
      unfold IsUInt32
      omega
  · intro c hc
    change c ∈ concatNames manyNames at hc
    rcases mem_concatNames hc with h | ⟨n, hn, hcn⟩
    · omega
    · rcases mem_manyNames hn with h | h
      · subst h; simp at hcn
      · subst h
        have := List.mem_singleton.mp hcn
        omega

/-! ## Claims on `getIdN` and `getName` -/

/-- C2, as stated, fails: the name table of the well-typed mask `manyNamesMask` is built as
the claim describes from the `2^32` NUL-free names of `manyNames` (every offset fits a
`uint32_t`), but `getIdN ()` is `(uint32_t) 2^32 = 0`, not `2^32`, and `getName (2^32 - 1)`
is `""` although the name of that id is "a". -/
theorem getIdN_many_names_counterexample :
    manyNamesMask.WellTyped ∧ (∀ n ∈ manyNames, 0 ∉ n) ∧
    manyNamesMask._Names = concatNames manyNames ∧
    manyNamesMask._NamesIndexes = nameOffsets 0 manyNames ∧
    manyNames.length = 4294967296 ∧ manyNamesMask.getIdN = 0 ∧
    manyNames[4294967295]? = some [97] ∧ manyNamesMask.getName 4294967295 = some [] := by
  have hid : manyNamesMask.getIdN = 0 := by
    unfold Mask.getIdN
    change toUInt32 ((nameOffsets 0 manyNames).length : Int) = 0
    rw [length_nameOffsets, length_manyNames]
    with_unfolding_all rfl
  refine ⟨manyNamesMask_wellTyped, ?_, rfl, rfl, length_manyNames, hid, ?_, ?_⟩
  · intro n hn
    rcases mem_manyNames hn with h | h <;> subst h <;> simp
  · unfold manyNames
    rw [List.getElem?_append_right (by rw [List.length_replicate]), List.length_replicate]
    rfl
  · unfold Mask.getName
    rw [hid, if_neg (Nat.not_lt_zero _)]

/-- C2, amended: for a list of `N < 2^32` names containing no NUL byte, if `_Names` is the
concatenation of the names each followed by `\0` and `_NamesIndexes[i]` is the byte offset at
which the `i`-th name starts, then `getIdN () = N`, `getName (id)` returns exactly the
`id`-th name for every `id < N`, and `getName (id)` returns `""` for every
`id >= getIdN ()`. -/
theorem getName_of_concatenated_names (m : Mask) (names : List (List Nat))
    (hnul : ∀ n ∈ names, 0 ∉ n) (hNames : m._Names = concatNames names)
    (hIdx : m._NamesIndexes = nameOffsets 0 names) (hN : names.length < 4294967296) :
    m.getIdN = names.length ∧
    (∀ id name, names[id]? = some name → m.getName id = some name) ∧
    (∀ id, m.getIdN ≤ id → m.getName id = some []) := by
  have hid : m.getIdN = names.length := by
    unfold Mask.getIdN
    rw [hIdx, length_nameOffsets, toUInt32_natCast hN]
  refine ⟨hid, ?_, ?_⟩
  · intro id name h
    obtain ⟨hlt, -⟩ := List.getElem?_eq_some.mp h
    obtain ⟨off, h1, h2⟩ := nameOffsets_spec names hnul [] id name h
    unfold Mask.getName
    rw [hid, if_pos hlt, hIdx]
    simp only [List.length_nil, List.nil_append] at h1 h2
    rw [h1, hNames]
    exact h2
  · intro id h
    unfold Mask.getName
    rw [if_neg (Nat.not_lt.mpr h)]

/-- Witness for C2, amended: the names "foo" and "bar" of
`exampleMask`. -/
theorem getName_of_concatenated_names_witness :
    exampleMask.getIdN = [[102, 111, 111], [98, 97, 114]].length ∧
    (∀ id name, [[102, 111, 111], [98, 97, 114]][id]? = some name →
      exampleMask.getName id = some name) ∧
    (∀ id, exampleMask.getIdN ≤ id → exampleMask.getName id = some []) :=
  getName_of_concatenated_names exampleMask [[102, 111, 111], [98, 97, 114]] (by decide)
    (by decide) (by decide) (by decide)

/-! ## The `match` lambda -/

theorem strstr_isSome_iff (hay needle : List Nat) :
    (strstr hay needle).isSome = true ↔ needle <:+: hay := by
  induction hay with
  | nil =>
    unfold strstr
    by_cases h : needle = []
    · simp [h]
    · simp [h]
  | cons c hay ih =>
    unfold strstr
    by_cases h : needle.isPrefixOf (c :: hay) = true
    · rw [if_pos h]
      simp only [Option.isSome_some, true_iff]
      exact ( List.isPrefixOf_iff_prefix.mp h).isInfix
    · have e : (Option.map (fun x => x + 1) (strstr hay needle)).isSome
          = (strstr hay needle).isSome := by
        cases strstr hay needle <;> rfl
      rw [if_neg h, e, ih, List.infix_cons_iff]
      have h' : ¬ needle <+: c :: hay := fun hp => h ( List.isPrefixOf_iff_prefix.mpr hp)
      tauto

theorem c_str_of_no_nul {p : List Nat} (h : 0 ∉ p) : c_str p = p := by
  unfold c_str
  rw [List.takeWhile_eq_self_iff]
  intro a ha
  have : a ≠ 0 := fun e => h (e ▸ ha)
  simpa using this

/-- The lambda tests, for each pattern in turn, whether its C string occurs in the name. -/
theorem render_match_iff (patterns : List (List Nat)) (name : List Nat) :
    render_match patterns name = true ↔ ∃ p ∈ patterns, c_str p <:+: name := by
  induction patterns with
  | nil => simp [render_match]
  | cons p ps ih =>
    unfold render_match
    by_cases h : (strstr name (c_str p)).isSome = true
    · rw [if_pos h]
      simp only [true_iff]
      exact ⟨p, List.mem_cons_self _ _, (strstr_isSome_iff _ _).mp h⟩
    · rw [if_neg h, ih]
      have h' : ¬ c_str p <:+: name := fun hp => h ((strstr_isSome_iff _ _).mpr hp)
      simp only [List.mem_cons, exists_eq_or_imp, h', false_or]

/-- C3: for every set of NUL-free pattern strings (the strings `render` can build) and every
name, the `match` predicate returns true if and only if some pattern occurs in the name as
a contiguous, byte-exact substring; for the empty pattern set it returns false. -/
theorem render_match_iff_substring (patterns : List (List Nat)) (name : List Nat)
    (hnul : ∀ p ∈ patterns, 0 ∉ p) :
    (render_match patterns name = true ↔ ∃ p ∈ patterns, p <:+: name) ∧
    render_match [] name = false := by
  refine ⟨?_, rfl⟩
  rw [render_match_iff]
  constructor
  · rintro ⟨p, hp, h⟩
    exact ⟨p, hp, by rwa [c_str_of_no_nul (hnul p hp)] at h⟩
  · rintro ⟨p, hp, h⟩
    exact ⟨p, hp, by rwa [c_str_of_no_nul (hnul p hp)]⟩

/-- Witness for C3: the pattern "oo" against the name "foo". -/
theorem render_match_iff_substring_witness :
    (render_match [[111, 111]] [102, 111, 111] = true ↔
      ∃ p ∈ [[111, 111]], p <:+: [102, 111, 111]) ∧
    render_match [] [102, 111, 111] = false :=
  render_match_iff_substring [[111, 111]] [102, 111, 111] (by decide)

/-! ## The pattern splitting loop -/

theorem strLess_antisymm : ∀ (s t : List Nat), strLess s t = false → strLess t s = false →
    s = t
  | [], [], _, _ => rfl
  | [], _ :: _, h, _ => by simp [strLess] at h
  | _ :: _, [], _, h => by simp [strLess] at h
  | a :: as, b :: bs, h1, h2 => by
    unfold strLess at h1 h2
    by_cases hab : a < b
    · simp [hab] at h1
    · by_cases hba : b < a
      · simp [hba] at h2
      · rw [if_neg hab, if_neg hba] at h1
        rw [if_neg hba, if_neg hab] at h2
        have e : a = b := by omega
        rw [e, strLess_antisymm as bs h1 h2]

theorem mem_setInsert {s x : List Nat} {l : List (List Nat)} :
    x ∈ setInsert s l ↔ x = s ∨ x ∈ l := by
  induction l with
  | nil => simp [setInsert]
  | cons t ts ih =>
    unfold setInsert
    by_cases h1 : strLess s t = true
    · rw [if_pos h1]; simp
    · rw [if_neg h1]
      by_cases h2 : strLess t s = true
      · rw [if_pos h2]
        simp only [List.mem_cons, ih]
        tauto
      · rw [if_neg h2]
        have e : s = t :=
          strLess_antisymm s t (by simpa using h1) (by simpa using h2)
        subst e
        simp only [List.mem_cons]
        tauto

theorem isMaximalRun_iff {config p : List Nat} :
    IsMaximalRun config p ↔
      p ≠ [] ∧ (∀ c ∈ p, c ≠ 10 ∧ c ≠ 13) ∧
      ∃ pre post, config = pre ++ p ++ post ∧
        (∀ ys a, pre = ys ++ [a] → a = 10 ∨ a = 13) ∧
        (∀ a ys, post = a :: ys → a = 10 ∨ a = 13) := by
  unfold IsMaximalRun
  refine and_congr_right fun _ => and_congr_right fun _ =>
    exists_congr fun pre => exists_congr fun post => and_congr_right fun _ => and_congr ?_ ?_
  · constructor
    · intro h ys a e
      exact h a (List.getLast?_eq_some_iff.mpr ⟨ys, e⟩)
    · intro h c hc
      obtain ⟨ys, e⟩ := List.getLast?_eq_some_iff.mp hc
      exact h ys c e
  · constructor
    · intro h a ys e
      exact h a (by rw [e]; rfl)
    · intro h c hc
      cases post with
      | nil => simp at hc
      | cons b ys =>
        simp only [List.head?_cons, Option.some.injEq] at hc
        exact h c ys (by rw [hc])

theorem not_mem_of_break {p : List Nat} {c : Nat} (hnb : ∀ a ∈ p, a ≠ 10 ∧ a ≠ 13)
    (hc : c = 10 ∨ c = 13) : c ∉ p := by
  intro h
  rcases hc with rfl | rfl
  · exact (hnb _ h).1 rfl
  · exact (hnb _ h).2 rfl

theorem pre_nil_of_no_break {line pre tail : List Nat}
    (hline : ∀ a ∈ line, a ≠ 10 ∧ a ≠ 13) (e : line = pre ++ tail)
    (hpre : ∀ ys a, pre = ys ++ [a] → a = 10 ∨ a = 13) : pre = [] := by
  rcases List.eq_nil_or_concat pre with h | ⟨ys, a, h⟩
  · exact h
  · exfalso
    rw [List.concat_eq_append] at h
    have hb := hpre ys a h
    have ha : a ∈ line := by rw [e, h]; simp
    exact not_mem_of_break hline hb ha

/-- A line without line break is its own only maximal run. -/
theorem isMaximalRun_line {line p : List Nat} (hline : ∀ a ∈ line, a ≠ 10 ∧ a ≠ 13) :
    IsMaximalRun line p ↔ p = line ∧ line ≠ [] := by
  rw [isMaximalRun_iff]
  constructor
  · rintro ⟨hp, -, pre, post, heq, hpre, hpost⟩
    rw [List.append_assoc] at heq
    have hpre_nil := pre_nil_of_no_break hline heq hpre
    subst hpre_nil
    rw [List.nil_append] at heq
    cases post with
    | nil =>
      rw [List.append_nil] at heq
      exact ⟨heq.symm, heq ▸ hp⟩
    | cons b ys =>
      exfalso
      have hb := hpost b ys rfl
      have : b ∈ line := by rw [heq]; simp
      exact not_mem_of_break hline hb this
  · rintro ⟨rfl, hne⟩
    exact ⟨hne, hline, [], [], by simp, by simp, by simp⟩

/-- The maximal runs of a line followed by a line break and the rest are the line, when
not empty, and the maximal runs of the rest. -/
theorem isMaximalRun_append_break {line rest p : List Nat} {c : Nat}
    (hline : ∀ a ∈ line, a ≠ 10 ∧ a ≠ 13) (hc : c = 10 ∨ c = 13) :
    IsMaximalRun (line ++ c :: rest) p ↔ (p = line ∧ line ≠ []) ∨ IsMaximalRun rest p := by
  rw [isMaximalRun_iff, isMaximalRun_iff]
  constructor
  · rintro ⟨hp, hnb, pre, post, heq, hpre, hpost⟩
    have hcp : c ∉ p := not_mem_of_break hnb hc
    rw [List.append_assoc] at heq
    rcases List.append_eq_append_iff.mp heq with ⟨a', hpre_eq, h2⟩ | ⟨c', hline_eq, h2⟩
    · cases a' with
      | nil =>
        exfalso
        cases p with
        | nil => exact hp rfl
        | cons b p' =>
          simp only [List.nil_append, List.cons_append, List.cons.injEq] at h2
          exact hcp (h2.1 ▸ List.mem_cons_self _ _)
      | cons b a'' =>
        simp only [List.cons_append, List.cons.injEq] at h2
        right
        refine ⟨hp, hnb, a'', post, by rw [h2.2, List.append_assoc], ?_, hpost⟩
        intro ys a hys
        apply hpre (line ++ b :: ys) a
        rw [hpre_eq, hys]
        simp
    · have hpre_nil := pre_nil_of_no_break hline hline_eq hpre
      subst hpre_nil
      rw [List.nil_append] at hline_eq
      subst hline_eq
      left
      rcases List.append_eq_append_iff.mp h2 with ⟨a', hc', h3⟩ | ⟨c'', hp', h3⟩
      · -- the line is `p ++ a'` and `post = a' ++ c :: rest`
        cases a' with
        | nil =>
          rw [List.append_nil] at hc'
          exact ⟨hc'.symm, hc' ▸ hp⟩
        | cons b ys =>
          exfalso
          have hb := hpost b (ys ++ c :: rest) (by rw [h3]; rfl)
          have : b ∈ line := by rw [hc']; simp
          exact not_mem_of_break hline hb this
      · -- `p` is the line followed by `c''`, and `c :: rest = c'' ++ post`
        cases c'' with
        | nil =>
          rw [List.append_nil] at hp'
          exact ⟨hp', hp' ▸ hp⟩
        | cons b ys =>
          exfalso
          simp only [List.cons_append, List.cons.injEq] at h3
          apply hcp
          rw [hp', h3.1]
          simp
  · rintro (⟨rfl, hne⟩ | ⟨hp, hnb, pre, post, heq, hpre, hpost⟩)
    · refine ⟨hne, hline, [], c :: rest, by simp, by simp, ?_⟩
      intro a ys e
      simp only [List.cons.injEq] at e
      exact e.1 ▸ hc
    · refine ⟨hp, hnb, line ++ c :: pre, post, by rw [heq]; simp, ?_, hpost⟩
      intro ys a e
      rcases List.eq_nil_or_concat pre with h | ⟨zs, b, h⟩
      · subst h
        have e' : line ++ [c] = ys ++ [a] := e
        have := List.append_inj_right' e' rfl
        simp only [List.cons.injEq, and_true] at this
        exact this ▸ hc
      · rw [List.concat_eq_append] at h
        subst h
        have e' : (line ++ c :: zs) ++ [b] = ys ++ [a] := by rw [← e]; simp
        have := List.append_inj_right' e' rfl
        simp only [List.cons.injEq, and_true] at this
        exact this ▸ hpre zs b rfl

/-- The loop, started on the characters `config` followed by `\0` with the line read so
far, ends and adds to the set the maximal runs of the line followed by `config`. -/
theorem splitLoop_spec (config : List Nat) (h0 : 0 ∉ config) (junk : List Nat) :
    ∀ (line : List Nat) (patterns : List (List Nat)), (∀ a ∈ line, a ≠ 10 ∧ a ≠ 13) →
      ∃ result, splitLoop (config ++ 0 :: junk) line patterns = some result ∧
        ∀ p, p ∈ result ↔ p ∈ patterns ∨ IsMaximalRun (line ++ config) p := by
  induction config with
  | nil =>
    intro line patterns hline
    by_cases hl : line = []
    · refine ⟨patterns, by simp [splitLoop, hl], fun p => ?_⟩
      rw [List.append_nil, isMaximalRun_line hline]
      constructor
      · exact Or.inl
      · rintro (h | ⟨-, h⟩)
        · exact h
        · exact absurd hl h
    · refine ⟨setInsert line patterns, by simp [splitLoop, hl], fun p => ?_⟩
      rw [List.append_nil, isMaximalRun_line hline, mem_setInsert]
      constructor
      · rintro (h | h)
        · exact Or.inr ⟨h, hl⟩
        · exact Or.inl h
      · rintro (h | ⟨h, -⟩)
        · exact Or.inr h
        · exact Or.inl h
  | cons c config ih =>
    intro line patterns hline
    have hc0 : c ≠ 0 := fun e => h0 (e ▸ List.mem_cons_self _ _)
    have h0' : 0 ∉ config := fun h => h0 (List.mem_cons_of_mem _ h)
    by_cases hc : c = 10 ∨ c = 13
    · have hcond : c = 10 ∨ c = 13 ∨ c = 0 := by tauto
      by_cases hl : line = []
      · obtain ⟨result, hr, hmem⟩ := ih h0' line patterns hline
        refine ⟨result, ?_, fun p => ?_⟩
        · rw [List.cons_append, splitLoop, if_pos hcond, if_neg (not_not.mpr hl), if_neg hc0]
          exact hr
        · rw [hmem, isMaximalRun_append_break hline hc]
          subst hl
          simp
      · obtain ⟨result, hr, hmem⟩ := ih h0' [] (setInsert line patterns) (by simp)
        refine ⟨result, ?_, fun p => ?_⟩
        · rw [List.cons_append, splitLoop, if_pos hcond, if_pos hl, if_neg hc0]
          exact hr
        · rw [hmem, isMaximalRun_append_break hline hc, mem_setInsert, List.nil_append]
          constructor
          · rintro ((h | h) | h)
            · exact Or.inr (Or.inl ⟨h, hl⟩)
            · exact Or.inl h
            · exact Or.inr (Or.inr h)
          · rintro (h | ⟨h, -⟩ | h)
            · exact Or.inl (Or.inr h)
            · exact Or.inl (Or.inl h)
            · exact Or.inr h
    · have hcond : ¬ (c = 10 ∨ c = 13 ∨ c = 0) := by tauto
      have hline' : ∀ a ∈ line ++ [c], a ≠ 10 ∧ a ≠ 13 := by
        intro a ha
        rcases List.mem_append.mp ha with h | h
        · exact hline a h
        · rw [List.mem_singleton.mp h]
          exact ⟨fun e => hc (Or.inl e), fun e => hc (Or.inr e)⟩
      obtain ⟨result, hr, hmem⟩ := ih h0' (line ++ [c]) patterns hline'
      refine ⟨result, ?_, fun p => ?_⟩
      · rw [List.cons_append, splitLoop, if_neg hcond]
        exact hr
      · rw [hmem, List.append_assoc, List.singleton_append]

/-! ## Claims on the pattern set -/

/-- C4: for every NUL-terminated configuration string the splitting loop of `render` ends,
and the pattern set it produces is the set of the non-empty maximal runs of characters
other than `\n` and `\r`: every element is non-empty and holds no line-break character, a
final line without trailing line break is included, and a configuration of line breaks
only (the empty one included) yields the empty set. -/
theorem parsePatterns_eq_maximal_runs (config : List Nat) (h0 : 0 ∉ config) :
    ∃ patterns, parsePatterns config = some patterns ∧
      (∀ p, p ∈ patterns ↔ IsMaximalRun config p) ∧
      (∀ p ∈ patterns, p ≠ [] ∧ ∀ c ∈ p, c ≠ 10 ∧ c ≠ 13) ∧
      (∀ pre line, config = pre ++ line → line ≠ [] → (∀ c ∈ line, c ≠ 10 ∧ c ≠ 13) →
        (∀ c, pre.getLast? = some c → c = 10 ∨ c = 13) → line ∈ patterns) ∧
      ((∀ c ∈ config, c = 10 ∨ c = 13) → patterns = []) := by
  obtain ⟨patterns, hr, hmem⟩ := splitLoop_spec config h0 [] [] [] (by simp)
  have hmem' : ∀ p, p ∈ patterns ↔ IsMaximalRun config p := by
    intro p
    rw [hmem, List.nil_append]
    simp
  refine ⟨patterns, hr, hmem', ?_, ?_, ?_⟩
  · intro p hp
    have := (hmem' p).mp hp
    exact ⟨this.1, this.2.1⟩
  · intro pre line e hne hnb hpre
    exact (hmem' line).mpr ⟨hne, hnb, pre, [], by rw [e]; simp, hpre, by simp⟩
  · intro hall
    apply List.eq_nil_iff_forall_not_mem.mpr
    intro p hp
    obtain ⟨hne, hnb, pre, post, e, -, -⟩ := (hmem' p).mp hp
    cases p with
    | nil => exact hne rfl
    | cons a p' =>
      have ha : a ∈ config := by rw [e]; simp
      exact not_mem_of_break hnb (hall a ha) (List.mem_cons_self _ _)

/-- Witness for C4: the configuration "a\r\n\nbc". -/
theorem parsePatterns_eq_maximal_runs_witness :
    ∃ patterns, parsePatterns [97, 13, 10, 10, 98, 99] = some patterns ∧
      (∀ p, p ∈ patterns ↔ IsMaximalRun [97, 13, 10, 10, 98, 99] p) ∧
      (∀ p ∈ patterns, p ≠ [] ∧ ∀ c ∈ p, c ≠ 10 ∧ c ≠ 13) ∧
      (∀ pre line, [97, 13, 10, 10, 98, 99] = pre ++ line → line ≠ [] →
        (∀ c ∈ line, c ≠ 10 ∧ c ≠ 13) →
        (∀ c, pre.getLast? = some c → c = 10 ∨ c = 13) → line ∈ patterns) ∧
      ((∀ c ∈ [97, 13, 10, 10, 98, 99], c = 10 ∨ c = 13) → patterns = []) :=
  parsePatterns_eq_maximal_runs [97, 13, 10, 10, 98, 99] (by decide)

/-- Every character other than a line break lies in a maximal run. -/
theorem exists_maximalRun_of_mem (config : List Nat) :
    ∀ (line : List Nat), (∀ a ∈ line, a ≠ 10 ∧ a ≠ 13) →
      ∀ c ∈ line ++ config, c ≠ 10 → c ≠ 13 →
        ∃ p, IsMaximalRun (line ++ config) p ∧ c ∈ p := by
  induction config with
  | nil =>
    intro line hline c hc _ _
    rw [List.append_nil] at hc ⊢
    exact ⟨line, (isMaximalRun_line hline).mpr ⟨rfl, List.ne_nil_of_mem hc⟩, hc⟩
  | cons d config ih =>
    intro line hline c hc h10 h13
    by_cases hd : d = 10 ∨ d = 13
    · rcases List.mem_append.mp hc with h | h
      · exact ⟨line, (isMaximalRun_append_break hline hd).mpr
          (Or.inl ⟨rfl, List.ne_nil_of_mem h⟩), h⟩
      · rcases List.mem_cons.mp h with h | h
        · exfalso
          rcases hd with e | e
          · exact h10 (h.trans e)
          · exact h13 (h.trans e)
        · obtain ⟨p, hp, hcp⟩ := ih [] (by simp) c (by simpa using h) h10 h13
          rw [List.nil_append] at hp
          exact ⟨p, (isMaximalRun_append_break hline hd).mpr (Or.inr hp), hcp⟩
    · have hline' : ∀ a ∈ line ++ [d], a ≠ 10 ∧ a ≠ 13 := by
        intro a ha
        rcases List.mem_append.mp ha with h | h
        · exact hline a h
        · rw [List.mem_singleton.mp h]
          exact ⟨fun e => hd (Or.inl e), fun e => hd (Or.inr e)⟩
      have hc' : c ∈ (line ++ [d]) ++ config := by
        rw [List.append_assoc, List.singleton_append]
        exact hc
      obtain ⟨p, hp, hcp⟩ := ih (line ++ [d]) hline' c hc' h10 h13
      rw [List.append_assoc, List.singleton_append] at hp
      exact ⟨p, hp, hcp⟩

/-- C8, as stated, fails: for the configuration " a\n\tb " the parsed set is
`{"\tb ", " a"}`; its strings keep their leading space or tab and their trailing space. -/
theorem parsePatterns_untrimmed_counterexample :
    parsePatterns [32, 97, 10, 9, 98, 32] = some [[9, 98, 32], [32, 97]] ∧
    [32, 97].head? = some 32 ∧ [9, 98, 32].head? = some 9 ∧
    [9, 98, 32].getLast? = some 32 := by
  decide

/-- C8, amended: the strings of the pattern set parsed by `render` are the non-empty lines of
the configuration, untrimmed. Every string of the set is non-empty, has no leading and no
trailing line-break character (`\n` or `\r`), contains no line-break character at all, and
stands in the configuration between a line break or the start and a line break or the end;
every non-empty line of the configuration is in the set as it is; and every character other
than `\n` and `\r`, spaces and tabs included, is kept in some string of the set. -/
theorem parsePatterns_whole_lines (config : List Nat) (h0 : 0 ∉ config)
    (patterns : List (List Nat)) (hparse : parsePatterns config = some patterns) :
    (∀ p ∈ patterns, p ≠ [] ∧ (∀ c, p.head? = some c → c ≠ 10 ∧ c ≠ 13) ∧
      (∀ c, p.getLast? = some c → c ≠ 10 ∧ c ≠ 13) ∧ (∀ c ∈ p, c ≠ 10 ∧ c ≠ 13) ∧
      ∃ pre post, config = pre ++ p ++ post ∧
        (∀ c, pre.getLast? = some c → c = 10 ∨ c = 13) ∧
        (∀ c, post.head? = some c → c = 10 ∨ c = 13)) ∧
    (∀ pre line post, config = pre ++ line ++ post → line ≠ [] →
      (∀ c ∈ line, c ≠ 10 ∧ c ≠ 13) →
      (∀ c, pre.getLast? = some c → c = 10 ∨ c = 13) →
      (∀ c, post.head? = some c → c = 10 ∨ c = 13) → line ∈ patterns) ∧
    (∀ c ∈ config, c ≠ 10 → c ≠ 13 → ∃ p ∈ patterns, c ∈ p) := by
  obtain ⟨result, hr, hmem⟩ := splitLoop_spec config h0 [] [] [] (by simp)
  have e : result = patterns := Option.some.inj (hr.symm.trans hparse)
  subst e
  have hrun : ∀ p, p ∈ result ↔ IsMaximalRun config p := by
    intro p
    rw [hmem, List.nil_append]
    simp
  refine ⟨?_, ?_, ?_⟩
  · intro p hp
    obtain ⟨hne, hnb, pre, post, hcfg, hpre, hpost⟩ := (hrun p).mp hp
    exact ⟨hne, fun c hc => hnb c (List.mem_of_mem_head? hc),
      fun c hc => hnb c (List.mem_of_mem_getLast? hc), hnb, pre, post, hcfg, hpre, hpost⟩
  · intro pre line post hcfg hne hnb hpre hpost
    exact (hrun line).mpr ⟨hne, hnb, pre, post, hcfg, hpre, hpost⟩
  · intro c hc h10 h13
    obtain ⟨p, hp, hcp⟩ := exists_maximalRun_of_mem config [] (by simp) c
      (by simpa using hc) h10 h13
    rw [List.nil_append] at hp
    exact ⟨p, (hrun p).mpr hp, hcp⟩

/-- Witness for C8, amended: the configuration " a\n\tb ". -/
theorem parsePatterns_whole_lines_witness :
    (∀ p ∈ [[9, 98, 32], [32, 97]], p ≠ [] ∧ (∀ c, p.head? = some c → c ≠ 10 ∧ c ≠ 13) ∧
      (∀ c, p.getLast? = some c → c ≠ 10 ∧ c ≠ 13) ∧ (∀ c ∈ p, c ≠ 10 ∧ c ≠ 13) ∧
      ∃ pre post, [32, 97, 10, 9, 98, 32] = pre ++ p ++ post ∧
        (∀ c, pre.getLast? = some c → c = 10 ∨ c = 13) ∧
        (∀ c, post.head? = some c → c = 10 ∨ c = 13)) ∧
    (∀ pre line post, [32, 97, 10, 9, 98, 32] = pre ++ line ++ post → line ≠ [] →
      (∀ c ∈ line, c ≠ 10 ∧ c ≠ 13) →
      (∀ c, pre.getLast? = some c → c = 10 ∨ c = 13) →
      (∀ c, post.head? = some c → c = 10 ∨ c = 13) →
        line ∈ [[9, 98, 32], [32, 97]]) ∧
    (∀ c ∈ [32, 97, 10, 9, 98, 32], c ≠ 10 → c ≠ 13 →
      ∃ p ∈ [[9, 98, 32], [32, 97]], c ∈ p) :=
  parsePatterns_whole_lines [32, 97, 10, 9, 98, 32] (by decide)
    [[9, 98, 32], [32, 97]] (by decide)

/-! ## Step functions -/

/-- A sequence that starts at or below `k` and ends above `k` steps over `k` somewhere. -/
theorem exists_step (f : Nat → Nat) (k : Nat) :
    ∀ n, f 0 ≤ k → k < f n → ∃ t, t < n ∧ f t ≤ k ∧ k < f (t + 1) := by
  intro n
  induction n with
  | zero => intro h0 hn; omega
  | succ m ih =>
    intro h0 hn
    by_cases h : k < f m
    · obtain ⟨t, ht, h1, h2⟩ := ih h0 h
      exact ⟨t, Nat.lt_succ_of_lt ht, h1, h2⟩
    · exact ⟨m, Nat.lt_succ_self m, Nat.le_of_not_lt h, hn⟩

/-- A non-decreasing sequence steps over `k` at one place only. -/
theorem step_unique (f : Nat → Nat) (n : Nat) (hmono : ∀ a b, a ≤ b → b ≤ n → f a ≤ f b)
    {k t t' : Nat} (ht : t < n) (ht' : t' < n) (h : f t ≤ k ∧ k < f (t + 1))
    (h' : f t' ≤ k ∧ k < f (t' + 1)) : t = t' := by
  rcases Nat.lt_trichotomy t t' with hlt | heq | hgt
  · have := hmono (t + 1) t' hlt (Nat.le_of_lt ht')
    omega
  · exact heq
  · have := hmono (t' + 1) t hgt (Nat.le_of_lt ht)
    omega

/-! ## The row bands of `multiThreadProcessing` -/

theorem toUInt32_toInt32 (z : Int) : toUInt32 (toInt32 z) = toUInt32 z := by
  unfold toInt32 toUInt32
  omega

theorem toUInt32_eq_toNat {z : Int} (h0 : 0 ≤ z) (h1 : z < 4294967296) :
    toUInt32 z = z.toNat := by
  have := toUInt32_of_bounds h0 h1
  omega

theorem div_band_le {t n d : Nat} (ht : t ≤ n) (hn : 0 < n) : t * d / n ≤ d := by
  calc t * d / n ≤ n * d / n := Nat.div_le_div_right (Nat.mul_le_mul_right d ht)
    _ = d := Nat.mul_div_cancel_left d hn

theorem div_band_mono {n d : Nat} {a b : Nat} (h : a ≤ b) : a * d / n ≤ b * d / n :=
  Nat.div_le_div_right (Nat.mul_le_mul_right d h)

/-- Without wrap-around the band of thread `t` is
`[y1 + t*dy/nThreads, y1 + (t+1)*dy/nThreads)`. -/
theorem multiThreadProcessing_eq {t nThreads : Nat} {y1 y2 : Int}
    (hy1 : IsInt32 y1) (hy2 : IsInt32 y2) (hn : 1 ≤ nThreads) (hn32 : IsUInt32 nThreads)
    (hle : y1 ≤ y2) (hwrap : (y2 - y1) * nThreads < 4294967296) (ht : t < nThreads) :
    multiThreadProcessing t nThreads y1 y2 =
      some (y1 + ((t * (y2 - y1).toNat / nThreads : Nat) : Int),
        y1 + (((t + 1) * (y2 - y1).toNat / nThreads : Nat) : Int)) := by
  obtain ⟨hy1l, hy1u⟩ := hy1
  obtain ⟨hy2l, hy2u⟩ := hy2
  have hD : (((y2 - y1).toNat : Nat) : Int) = y2 - y1 := Int.toNat_of_nonneg (by omega)
  generalize (y2 - y1).toNat = D at hD ⊢
  have hDn : D * nThreads < 4294967296 := by
    have : ((D * nThreads : Nat) : Int) < 4294967296 := by
      push_cast
      rw [hD]
      exact hwrap
    exact_mod_cast this
  have hDle : D ≤ D * nThreads := Nat.le_mul_of_pos_right D hn
  have htD : t * D < 4294967296 := by
    have : t * D ≤ nThreads * D := Nat.mul_le_mul_right D (Nat.le_of_lt ht)
    rw [Nat.mul_comm nThreads D] at this
    omega
  have htD' : (t + 1) * D < 4294967296 := by
    have : (t + 1) * D ≤ nThreads * D := Nat.mul_le_mul_right D ht
    rw [Nat.mul_comm nThreads D] at this
    omega
  have hq1 : t * D / nThreads ≤ D := div_band_le (Nat.le_of_lt ht) hn
  have hq2 : (t + 1) * D / nThreads ≤ D := div_band_le ht hn
  have hdy : windowDy y1 y2 = D := by
    unfold windowDy
    rw [toUInt32_toInt32, toUInt32_eq_toNat (by omega) (by omega)]
    omega
  have hrange : ∀ q : Nat, q ≤ D → toInt32 (toUInt32 (y1 + (q : Int))) = y1 + (q : Int) := by
    intro q hq
    rw [toInt32_toUInt32, toInt32_of_bounds (by omega) (by omega)]
  have ht1 : t + 1 < 4294967296 := by
    unfold IsUInt32 at hn32
    omega
  have hb1 : toInt32 (bandY1 t nThreads y1 D) = y1 + ((t * D / nThreads : Nat) : Int) := by
    unfold bandY1
    rw [toUInt32_natCast htD, hrange _ hq1]
  have hb2 : toInt32 (bandY2 t nThreads y1 D) =
      y1 + (((t + 1) * D / nThreads : Nat) : Int) := by
    unfold bandY2
    rw [toUInt32_natCast ht1, toUInt32_natCast htD', Nat.min_eq_left hq2, hrange _ hq2]
  unfold multiThreadProcessing
  rw [if_neg (by omega), hdy, hb1, hb2]

/-! ## Claim on the row bands -/

/-- C6: for `nThreads >= 1` threads and a render window with `y1 <= y2` and
`(y2-y1)*nThreads < 2^32`, the band of thread `t` is `[b1(t), b2(t))` with
`b1(t) = y1 + t*dy/nThreads` and `b2(t) = y1 + min((t+1)*dy/nThreads, dy)`, `dy = y2-y1`;
the bands are consecutive (`b2(t) = b1(t+1)`), their union is exactly `[y1, y2)`, and every
row of the window lies in the band of exactly one thread (so the bands are pairwise
disjoint). -/
theorem multiThreadProcessing_bands (nThreads : Nat) (y1 y2 : Int)
    (hy1 : IsInt32 y1) (hy2 : IsInt32 y2) (hn : 1 ≤ nThreads) (hn32 : IsUInt32 nThreads)
    (hle : y1 ≤ y2) (hwrap : (y2 - y1) * nThreads < 4294967296) :
    (∀ t, t < nThreads → multiThreadProcessing t nThreads y1 y2 =
      some (y1 + ((t * (y2 - y1).toNat / nThreads : Nat) : Int),
        y1 + ((min ((t + 1) * (y2 - y1).toNat / nThreads) (y2 - y1).toNat : Nat) : Int))) ∧
    (∀ t, t + 1 < nThreads → ∀ b b', multiThreadProcessing t nThreads y1 y2 = some b →
      multiThreadProcessing (t + 1) nThreads y1 y2 = some b' → b.2 = b'.1) ∧
    (∀ y, (y1 ≤ y ∧ y < y2) ↔
      ∃ t, t < nThreads ∧ ∃ b, multiThreadProcessing t nThreads y1 y2 = some b ∧
        rowInBand b y) ∧
    (∀ y, y1 ≤ y → y < y2 →
      ∃! t, t < nThreads ∧ ∃ b, multiThreadProcessing t nThreads y1 y2 = some b ∧
        rowInBand b y) := by
  have hfirst : ∀ t, t < nThreads → multiThreadProcessing t nThreads y1 y2 =
      some (y1 + ((t * (y2 - y1).toNat / nThreads : Nat) : Int),
        y1 + ((min ((t + 1) * (y2 - y1).toNat / nThreads) (y2 - y1).toNat : Nat) : Int)) := by
    intro t ht
    rw [multiThreadProcessing_eq hy1 hy2 hn hn32 hle hwrap ht,
      Nat.min_eq_left (div_band_le ht hn)]
  -- the band limits as an abstract non-decreasing sequence `q` from `0` to `dy`
  obtain ⟨q, D, hD, hq0, hqn, hmono, heq⟩ : ∃ (q : Nat → Nat) (D : Nat),
      (D : Int) = y2 - y1 ∧ q 0 = 0 ∧ q nThreads = D ∧
      (∀ a b, a ≤ b → b ≤ nThreads → q a ≤ q b) ∧
      ∀ t, t < nThreads → multiThreadProcessing t nThreads y1 y2 =
        some (y1 + (q t : Int), y1 + (q (t + 1) : Int)) :=
    ⟨fun t => t * (y2 - y1).toNat / nThreads, (y2 - y1).toNat,
      Int.toNat_of_nonneg (by omega), by simp, Nat.mul_div_cancel_left _ hn,
      fun a b hab _ => div_band_mono hab,
      fun t ht => multiThreadProcessing_eq hy1 hy2 hn hn32 hle hwrap ht⟩
  -- membership of a row in the band of thread `t`
  have hrow : ∀ t, t < nThreads → ∀ y,
      (∃ b, multiThreadProcessing t nThreads y1 y2 = some b ∧ rowInBand b y) ↔
        (q t ≤ (y - y1).toNat ∧ (y - y1).toNat < q (t + 1) ∧ y1 ≤ y) := by
    intro t ht y
    rw [heq t ht]
    constructor
    · rintro ⟨b, hb, h1, h2⟩
      have hb' := Option.some.inj hb
      subst hb'
      simp only at h1 h2
      omega
    · rintro ⟨h1, h2, h3⟩
      refine ⟨_, rfl, ?_, ?_⟩
      · show y1 + (q t : Int) ≤ y
        omega
      · show y < y1 + (q (t + 1) : Int)
        omega
  refine ⟨hfirst, ?_, ?_, ?_⟩
  · intro t ht b b' hb hb'
    rw [heq t (by omega)] at hb
    rw [heq (t + 1) ht] at hb'
    rw [← Option.some.inj hb, ← Option.some.inj hb']
  · intro y
    constructor
    · rintro ⟨h1, h2⟩
      obtain ⟨t, ht, h3, h4⟩ := exists_step q (y - y1).toNat nThreads (by omega) (by omega)
      exact ⟨t, ht, (hrow t ht y).mpr ⟨h3, h4, h1⟩⟩
    · rintro ⟨t, ht, hb⟩
      obtain ⟨h1, h2, h3⟩ := (hrow t ht y).mp hb
      have := hmono (t + 1) nThreads ht (Nat.le_refl _)
      omega
  · intro y h1 h2
    obtain ⟨t, ht, h3, h4⟩ := exists_step q (y - y1).toNat nThreads (by omega) (by omega)
    refine ⟨t, ⟨ht, (hrow t ht y).mpr ⟨h3, h4, h1⟩⟩, ?_⟩
    rintro t' ⟨ht', hb'⟩
    obtain ⟨h5, h6, -⟩ := (hrow t' ht' y).mp hb'
    exact step_unique q nThreads hmono ht' ht ⟨h5, h6⟩ ⟨h3, h4⟩

/-- Witness for C6: four threads on the window `[-3, 7)`. -/
theorem multiThreadProcessing_bands_witness :
    (∀ t, t < 4 → multiThreadProcessing t 4 (-3) 7 =
      some (-3 + ((t * ((7 : Int) - -3).toNat / 4 : Nat) : Int),
        -3 + ((min ((t + 1) * ((7 : Int) - -3).toNat / 4) ((7 : Int) - -3).toNat : Nat)
          : Int))) ∧
    (∀ t, t + 1 < 4 → ∀ b b', multiThreadProcessing t 4 (-3) 7 = some b →
      multiThreadProcessing (t + 1) 4 (-3) 7 = some b' → b.2 = b'.1) ∧
    (∀ y, ((-3 : Int) ≤ y ∧ y < 7) ↔
      ∃ t, t < 4 ∧ ∃ b, multiThreadProcessing t 4 (-3) 7 = some b ∧ rowInBand b y) ∧
    (∀ y, (-3 : Int) ≤ y → y < 7 →
      ∃! t, t < 4 ∧ ∃ b, multiThreadProcessing t 4 (-3) 7 = some b ∧ rowInBand b y) :=
  multiThreadProcessing_bands 4 (-3) 7 (by decide) (by decide) (by decide) (by decide)
    (by decide) (by decide)

/-! ## Rounding to binary32 -/

/-- C10 does not hold of the code: for the rectangle `x1 = y1 = 0`, `x2 = y2 = 2` the pixel
`(0, 2)` is outside (`y = rect.y2`), yet `pixelAddress` does not return the null pointer: it
returns the address two lines below `img`, while `(2, 0)` (`x = rect.x2`) does give the
null pointer. The test reads `y > rect.y2` where the test on `x` reads `x >= rect.x2`. -/
theorem pixelAddress_row_y2 :
    pixelAddress 16 1000 ⟨0, 0, 2, 2⟩ 0 2 32 = some 1064 ∧
    pixelAddress 16 1000 ⟨0, 0, 2, 2⟩ 2 0 32 = none := by
  constructor
  · with_unfolding_all rfl
  · with_unfolding_all rfl

/-! ## The addressing map of `getSample` -/

theorem sum_range_telescope (g : Nat → Int) (n : Nat) :
    ((List.range n).map fun i => g (i + 1) - g i).sum = g n - g 0 := by
  induction n with
  | zero => simp
  | succ k ih =>
    rw [List.range_succ, List.map_append, List.sum_append, ih]
    simp

theorem Mask.sampleIndex_eq {p : Nat} {s : Int} (h0 : 0 ≤ (p : Int) + s)
    (h1 : (p : Int) + s < 2147483648) : Mask.sampleIndex p s = (p : Int) + s := by
  unfold Mask.sampleIndex
  rw [toInt32_toUInt32, toInt32_of_bounds (by omega) h1]

theorem Mask.flatIndex_eq (m : Mask) {x y s : Int} {p : Nat}
    (h : vecAt m._PixelsIndexes (m.pixelOffset x y) = some p) :
    m.flatIndex x y s = some (Mask.sampleIndex p s) := by
  unfold Mask.flatIndex
  rw [h, Option.map_some']

/-- The accessor `getSample` reads `_Ids` and `_Coverage` at the index `flatIndex`. -/
theorem Mask.getSample_eq_flatIndex (m : Mask) (x y s : Int) :
    m.getSample x y s = (do
      let i ← m.flatIndex x y s
      let id ← vecAt m._Ids i
      let cov ← vecAt m._Coverage i
      pure ⟨id, cov⟩) := by
  unfold Mask.getSample Mask.flatIndex
  cases vecAt m._PixelsIndexes (m.pixelOffset x y) with
  | none => rfl
  | some p => rfl

/-- Inside the image of a mask with fewer than `2^31` pixels and samples: the two offsets of
the pixel, and the value of `getSampleN`. -/
theorem Mask.pixel_facts (m : Mask) {x y : Int} {L : Nat}
    (hOL : m.OffsetsLayout) (hsz : m._Width * m._Height < 2147483648)
    (hlast : m._PixelsIndexes.getLast? = some L) (hL : L < 2147483648)
    (hx : 0 ≤ x) (hx' : x < m._Width) (hy : 0 ≤ y) (hy' : y < m._Height) :
    ∃ lo hi : Nat, m._PixelsIndexes[(x + y * m._Width).toNat]? = some lo ∧
      m._PixelsIndexes[(x + y * m._Width).toNat + 1]? = some hi ∧ lo ≤ hi ∧ hi ≤ L ∧
      vecAt m._PixelsIndexes (m.pixelOffset x y) = some lo ∧
      m.getSampleN x y = some ((hi : Int) - (lo : Int)) := by
  obtain ⟨lo, hi, h1, h2, hle, hv, hN⟩ := m.getSampleN_inside hOL hsz hx hx' hy hy'
  have hhi : hi ≤ L := sorted_le_getLast? hOL.2 h2 hlast
  refine ⟨lo, hi, h1, h2, hle, hhi, hv, ?_⟩
  rw [hN, toInt32_of_bounds (by omega) (by omega)]

theorem pixel_coords_unique {W x y x' y' : Int} (hx : 0 ≤ x) (hx' : x < W) (hx2 : 0 ≤ x')
    (hx2' : x' < W) (h : x + y * W = x' + y' * W) : x = x' ∧ y = y' := by
  have e1 : (x + y * W) % W = x := by
    rw [Int.add_mul_emod_self, Int.emod_eq_of_lt hx hx']
  have e2 : (x' + y' * W) % W = x' := by
    rw [Int.add_mul_emod_self, Int.emod_eq_of_lt hx2 hx2']
  have hxx : x = x' := by rw [← e1, ← e2, h]
  subst hxx
  have hW : W ≠ 0 := by omega
  have : y * W = y' * W := by omega
  exact ⟨rfl, Int.eq_of_mul_eq_mul_right hW this⟩

theorem getD_of_getElem? {l : List Nat} {i a : Nat} (h : l[i]? = some a) : l.getD i 0 = a := by
  rw [List.getD_eq_getElem?_getD, h]
  rfl

/-- The valid triples are mapped into the flat indices. -/
theorem Mask.flatIndex_valid (m : Mask) {L : Nat}
    (hOL : m.OffsetsLayout) (hsz : m._Width * m._Height < 2147483648)
    (hlast : m._PixelsIndexes.getLast? = some L) (hL : L < 2147483648)
    {x y s : Int} (hv : m.ValidTriple x y s) :
    ∃ lo hi : Nat, m._PixelsIndexes[(x + y * m._Width).toNat]? = some lo ∧
      m._PixelsIndexes[(x + y * m._Width).toNat + 1]? = some hi ∧
      (lo : Int) + s < hi ∧ hi ≤ L ∧ 0 ≤ s ∧ 0 ≤ x + y * m._Width ∧
      m.flatIndex x y s = some ((lo : Int) + s) := by
  obtain ⟨hx, hx', hy, hy', n, hn, hs, hs'⟩ := hv
  obtain ⟨lo, hi, h1, h2, hle, hhi, hvec, hN⟩ :=
    m.pixel_facts hOL hsz hlast hL hx hx' hy hy'
  rw [hN] at hn
  have hn' := Option.some.inj hn
  refine ⟨lo, hi, h1, h2, by omega, hhi, hs, (m.pixelOffset_eq hsz hx hx' hy hy').2.1, ?_⟩
  rw [m.flatIndex_eq hvec, Mask.sampleIndex_eq (by omega) (by omega)]

theorem Mask.flatIndex_injective (m : Mask) {L : Nat}
    (hOL : m.OffsetsLayout) (hsz : m._Width * m._Height < 2147483648)
    (hlast : m._PixelsIndexes.getLast? = some L) (hL : L < 2147483648)
    {x y s x' y' s' : Int} (hv : m.ValidTriple x y s) (hv' : m.ValidTriple x' y' s')
    (h : m.flatIndex x y s = m.flatIndex x' y' s') : x = x' ∧ y = y' ∧ s = s' := by
  obtain ⟨lo, hi, h1, h2, hlt, -, hs, hnn, hf⟩ := m.flatIndex_valid hOL hsz hlast hL hv
  obtain ⟨lo', hi', h1', h2', hlt', -, hs', hnn', hf'⟩ :=
    m.flatIndex_valid hOL hsz hlast hL hv'
  rw [hf, hf'] at h
  have he := Option.some.inj h
  have hp : (x + y * m._Width).toNat = (x' + y' * m._Width).toNat := by
    rcases Nat.lt_trichotomy (x + y * m._Width).toNat (x' + y' * m._Width).toNat with
      hlt2 | heq | hgt
    · have := sorted_getElem?_le hOL.2 hlt2 h2 h1'
      omega
    · exact heq
    · have := sorted_getElem?_le hOL.2 hgt h2' h1
      omega
  have hxy : x + y * m._Width = x' + y' * m._Width := by omega
  obtain ⟨e1, e2⟩ := pixel_coords_unique hv.1 hv.2.1 hv'.1 hv'.2.1 hxy
  rw [hp, h1'] at h1
  have := Option.some.inj h1
  refine ⟨e1, e2, ?_⟩
  omega

theorem Mask.flatIndex_surjective (m : Mask)
    (hOL : m.OffsetsLayout) (hsz : m._Width * m._Height < 2147483648)
    (hlast : m._PixelsIndexes.getLast? = some m._Ids.length)
    (hL : m._Ids.length < 2147483648) (h0 : m._PixelsIndexes.head? = some 0)
    (hW : 0 ≤ m._Width) {i : Nat} (hi : i < m._Ids.length) :
    ∃ x y s, m.ValidTriple x y s ∧ m.flatIndex x y s = some (i : Int) := by
  have hf0 : m._PixelsIndexes.getD 0 0 = 0 := by
    cases hP : m._PixelsIndexes with
    | nil => rfl
    | cons a l =>
      rw [hP] at h0
      simp only [List.head?_cons, Option.some.injEq] at h0
      rw [h0]
      rfl
  have hlen := hOL.1
  have hfN : m._PixelsIndexes.getD (m._Width * m._Height).toNat 0 = m._Ids.length := by
    apply getD_of_getElem?
    rw [List.getLast?_eq_getElem?] at hlast
    have e : m._PixelsIndexes.length - 1 = (m._Width * m._Height).toNat := by omega
    rw [← e]
    exact hlast
  obtain ⟨p, hp, h3, h4⟩ := exists_step (fun p => m._PixelsIndexes.getD p 0) i
    (m._Width * m._Height).toNat (by simp only [hf0]; omega) (by simp only [hfN]; exact hi)
  have hplt : (p : Int) < m._Width * m._Height := by omega
  have hWpos : 0 < m._Width := by
    rcases hW.lt_or_eq with h | h
    · exact h
    · rw [← h, zero_mul] at hplt; omega
  have hx0 := Int.emod_nonneg (p : Int) hWpos.ne'
  have hx1 := Int.emod_lt_of_pos (p : Int) hWpos
  have hy0 : 0 ≤ (p : Int) / m._Width := Int.ediv_nonneg (by omega) hW
  have hy1 : (p : Int) / m._Width < m._Height :=
    Int.ediv_lt_of_lt_mul hWpos (by rw [mul_comm]; exact hplt)
  obtain ⟨lo, hi', h1, h2, hle, hhi, hvec, hN⟩ :=
    m.pixel_facts hOL hsz hlast hL hx0 hx1 hy0 hy1
  rw [Int.emod_add_ediv', Int.toNat_natCast] at h1 h2
  have e1 := getD_of_getElem? h1
  have e2 := getD_of_getElem? h2
  simp only [e1, e2] at h3 h4
  refine ⟨(p : Int) % m._Width, (p : Int) / m._Width, (i : Int) - (lo : Int),
    ⟨hx0, hx1, hy0, hy1, _, hN, by omega, by omega⟩, ?_⟩
  rw [m.flatIndex_eq hvec, Mask.sampleIndex_eq (by omega) (by omega)]
  congr 1
  omega

/-- The sample counts of all pixels add up to the last offset. -/
theorem Mask.totalSampleN_eq (m : Mask) {L : Nat}
    (hOL : m.OffsetsLayout) (hsz : m._Width * m._Height < 2147483648)
    (hlast : m._PixelsIndexes.getLast? = some L) (hL : L < 2147483648)
    (h0 : m._PixelsIndexes.head? = some 0) (hW : 0 ≤ m._Width) (hH : 0 ≤ m._Height) :
    m.totalSampleN = (L : Int) := by
  obtain ⟨Wn, hWn⟩ : ∃ Wn : Nat, m._Width = (Wn : Int) :=
    ⟨m._Width.toNat, (Int.toNat_of_nonneg hW).symm⟩
  obtain ⟨Hn, hHn⟩ : ∃ Hn : Nat, m._Height = (Hn : Int) :=
    ⟨m._Height.toNat, (Int.toNat_of_nonneg hH).symm⟩
  have hlen := hOL.1
  have hf0 : m._PixelsIndexes.getD 0 0 = 0 := by
    cases hP : m._PixelsIndexes with
    | nil => rfl
    | cons a l =>
      rw [hP] at h0
      simp only [List.head?_cons, Option.some.injEq] at h0
      rw [h0]
      rfl
  have hfN : m._PixelsIndexes.getD (Hn * Wn) 0 = L := by
    apply getD_of_getElem?
    rw [List.getLast?_eq_getElem?] at hlast
    have e : m._PixelsIndexes.length - 1 = Hn * Wn := by
      have : (m._PixelsIndexes.length : Int) = ((Hn * Wn : Nat) : Int) + 1 := by
        rw [hlen, hWn, hHn]
        push_cast
        ring
      omega
    rw [← e]
    exact hlast
  -- the count of one pixel as a difference of consecutive offsets
  have hterm : ∀ y, y < Hn → ∀ x, x < Wn →
      (m.getSampleN (x : Int) (y : Int)).getD 0 =
        (m._PixelsIndexes.getD (y * Wn + x + 1) 0 : Int)
          - (m._PixelsIndexes.getD (y * Wn + x) 0 : Int) := by
    intro y hy x hx
    obtain ⟨lo, hi, h1, h2, -, -, -, hN⟩ := m.pixel_facts (x := (x : Int)) (y := (y : Int))
      hOL hsz hlast hL (by omega) (by omega) (by omega) (by omega)
    have e : ((x : Int) + (y : Int) * m._Width).toNat = y * Wn + x := by
      rw [hWn]
      have : ((x : Int) + (y : Int) * (Wn : Int)) = ((y * Wn + x : Nat) : Int) := by
        push_cast
        ring
      rw [this, Int.toNat_natCast]
    rw [e] at h1 h2
    rw [hN, getD_of_getElem? h1, getD_of_getElem? h2]
    rfl
  unfold Mask.totalSampleN
  rw [hWn, hHn, Int.toNat_natCast, Int.toNat_natCast]
  have hrowsum : ∀ y, y ∈ List.range Hn →
      ((List.range Wn).map fun (x : Nat) => (m.getSampleN (x : Int) (y : Int)).getD 0).sum =
        (m._PixelsIndexes.getD ((y + 1) * Wn) 0 : Int)
          - (m._PixelsIndexes.getD (y * Wn) 0 : Int) := by
    intro y hy
    have hy' : y < Hn := List.mem_range.mp hy
    rw [List.map_congr_left (fun x hx => hterm y hy' x (List.mem_range.mp hx))]
    have := sum_range_telescope (fun i => (m._PixelsIndexes.getD (y * Wn + i) 0 : Int)) Wn
    simp only [Nat.add_zero] at this
    rw [show (y + 1) * Wn = y * Wn + Wn by ring]
    exact this
  rw [List.map_congr_left hrowsum]
  have := sum_range_telescope (fun y => (m._PixelsIndexes.getD (y * Wn) 0 : Int)) Hn
  rw [this, hfN, Nat.zero_mul, hf0]
  simp

/-! ## Claim on the addressing map -/

/-- C11, as stated, fails: the well-typed mask `hugePixelMask` has offsets `[0, 2^31]`
(length `1*1+1`, starting at 0, non-decreasing, ending at the length `2^31` of `_Ids`), but
`getSampleN (0, 0)` is `-2^31`: its only pixel has no valid triple, so no flat index is
reached, and the sum of `getSampleN` over all pixels is `-2^31`, not the total sample
count `2^31`. -/
theorem flatIndex_bijection_counterexample :
    hugePixelMask.WellTyped ∧ hugePixelMask.Layout ∧
    hugePixelMask._PixelsIndexes.head? = some 0 ∧
    hugePixelMask._Width = 1 ∧ hugePixelMask._Height = 1 ∧
    hugePixelMask._Ids.length = 2147483648 ∧
    hugePixelMask.getSampleN 0 0 = some (-2147483648) ∧
    hugePixelMask.totalSampleN = -2147483648 := by
  refine ⟨hugePixelMask_wellTyped, hugePixelMask_layout, rfl, rfl, rfl, ?_, ?_, ?_⟩
  · show (List.replicate 2147483648 0).length = 2147483648
    rw [List.length_replicate]
  · with_unfolding_all rfl
  · with_unfolding_all rfl

/-- C11, amended: for a mask with non-negative sizes whose `_PixelsIndexes` has length
`_Width*_Height+1`, starts at 0, is non-decreasing and ends at the length of `_Ids`, with
`_Width*_Height < 2^31` and fewer than `2^31` samples, the map
`(x,y,s) -> pixelOffsets[x + y*_Width] + s` computed by `getSample` is a bijection from the
valid triples onto the flat indices `[0, length of _Ids)`: `getSample` reads `_Ids` and
`_Coverage` at that index, the map sends valid triples to flat indices, is injective on
them, reaches every flat index, and the sum of `getSampleN (x,y)` over all pixels is the
total sample count `pixelOffsets[_Width*_Height]`. -/
theorem flatIndex_bijection (m : Mask) (hL : m.Layout)
    (h0 : m._PixelsIndexes.head? = some 0) (hW : 0 ≤ m._Width) (hH : 0 ≤ m._Height)
    (hsz : m._Width * m._Height < 2147483648) (htot : m._Ids.length < 2147483648) :
    (∀ x y s, m.getSample x y s = (do
      let i ← m.flatIndex x y s
      let id ← vecAt m._Ids i
      let cov ← vecAt m._Coverage i
      pure ⟨id, cov⟩)) ∧
    (∀ x y s, m.ValidTriple x y s →
      ∃ i : Nat, m.flatIndex x y s = some (i : Int) ∧ i < m._Ids.length) ∧
    (∀ x y s x' y' s', m.ValidTriple x y s → m.ValidTriple x' y' s' →
      m.flatIndex x y s = m.flatIndex x' y' s' → x = x' ∧ y = y' ∧ s = s') ∧
    (∀ i : Nat, i < m._Ids.length →
      ∃ x y s, m.ValidTriple x y s ∧ m.flatIndex x y s = some (i : Int)) ∧
    m.totalSampleN = (m._Ids.length : Int) ∧
    m._PixelsIndexes[(m._Width * m._Height).toNat]? = some m._Ids.length := by
  obtain ⟨hOL, hlast, -⟩ := hL
  refine ⟨m.getSample_eq_flatIndex, ?_, ?_, ?_, ?_, ?_⟩
  · intro x y s hv
    obtain ⟨lo, hi, -, -, hlt, hhi, hs, -, hf⟩ := m.flatIndex_valid hOL hsz hlast htot hv
    refine ⟨lo + s.toNat, ?_, by omega⟩
    rw [hf]
    congr 1
    omega
  · intro x y s x' y' s' hv hv' h
    exact m.flatIndex_injective hOL hsz hlast htot hv hv' h
  · intro i hi
    exact m.flatIndex_surjective hOL hsz hlast htot h0 hW hi
  · exact m.totalSampleN_eq hOL hsz hlast htot h0 hW hH
  · rw [List.getLast?_eq_getElem?] at hlast
    have hlen := hOL.1
    have hnn : 0 ≤ m._Width * m._Height := mul_nonneg hW hH
    have e : m._PixelsIndexes.length - 1 = (m._Width * m._Height).toNat := by omega
    rw [← e]
    exact hlast

/-- Witness for C11, amended: the 2×1 mask `exampleMask`. -/
theorem flatIndex_bijection_witness :
    (∀ x y s, exampleMask.getSample x y s = (do
      let i ← exampleMask.flatIndex x y s
      let id ← vecAt exampleMask._Ids i
      let cov ← vecAt exampleMask._Coverage i
      pure ⟨id, cov⟩)) ∧
    (∀ x y s, exampleMask.ValidTriple x y s →
      ∃ i : Nat, exampleMask.flatIndex x y s = some (i : Int) ∧ i < exampleMask._Ids.length) ∧
    (∀ x y s x' y' s', exampleMask.ValidTriple x y s → exampleMask.ValidTriple x' y' s' →
      exampleMask.flatIndex x y s = exampleMask.flatIndex x' y' s' →
        x = x' ∧ y = y' ∧ s = s') ∧
    (∀ i : Nat, i < exampleMask._Ids.length →
      ∃ x y s, exampleMask.ValidTriple x y s ∧ exampleMask.flatIndex x y s = some (i : Int)) ∧
    exampleMask.totalSampleN = (exampleMask._Ids.length : Int) ∧
    exampleMask._PixelsIndexes[(exampleMask._Width * exampleMask._Height).toNat]? =
      some exampleMask._Ids.length :=
  flatIndex_bijection exampleMask (by decide) (by decide) (by decide) (by decide) (by decide)
    (by decide)

end openidmask
